import Mathlib

/-!
# Verification of the resilient AI-invocation core of `ai-mock`

This file gives a shallow embedding, over `List Char` strings, of the core of
the repository: the model catalog (`resolveConfiguredModels`, `preferredModels`,
`getCandidateModels`, `normalizeModelId`), the resilient invoker
(`chatSession.sendMessage`), the response sanitizer (`extractFirstJsonArray`,
`cleanAiResponse`, `isValidQuestions`), the deterministic fallback
(`buildFallbackQuestions`), and the generation orchestrator (the
question-generation phase of `onSubmit`, with `withTimeout`).

Modelling conventions:
* JavaScript strings are `List Char`.  A JS string used in a boolean position
  (`!model`, `!apiKey`) is falsy exactly when it is the empty list; an
  absent (`undefined`) optional string is `Option.none`.
* Network effects are oracles: the outcome of one generation call against one
  model is a function supplied in the environment, and the result of the
  discovery endpoint (`listAvailableModels`, already filtered to
  `generateContent` models and stripped of the `models/` prefix, as the source
  does) is a plain list supplied in the environment.
* `withTimeout` races a promise against a timer; real time is modelled by an
  oracle boolean saying whether the timer won.  When it wins the result is the
  timeout `Error` with the configured message, otherwise the promise's result.
* Thrown JS `Error`s are modelled as their message strings (`Except (List Char)`),
  which is exactly the granularity at which the source itself inspects them
  (`error.message`, `reason.toLowerCase().includes("timed out")`).
* `JSON.parse` is modelled by the executable `jsonParse` below, faithful to the
  strict JSON grammar (including rejection of raw control characters inside
  string literals).  Numbers are kept as their source token (the code never
  computes with parsed numbers), `\uXXXX` escapes decode to the code point
  (surrogate-pair recombination of JS's UTF-16 strings is not modelled), and
  the engine-specific suffix of a `SyntaxError` message is abstracted away.
-/

set_option linter.unusedVariables false

namespace AiMock

/-- Convert a Lean string literal to the `List Char` representation used
throughout this development. -/
def str (s : String) : List Char := s.data

/-- JSON insignificant whitespace: space, tab, line feed, carriage return. -/
def jsonWs (c : Char) : Bool := c.toNat = 32 || c.toNat = 9 || c.toNat = 10 || c.toNat = 13

/-- The whitespace set of JavaScript `String.prototype.trim` (WhiteSpace and
LineTerminator code points). -/
def jsWs (c : Char) : Bool :=
  c.toNat ∈ [9, 10, 11, 12, 13, 32, 160, 5760, 8192, 8193, 8194, 8195, 8196, 8197,
    8198, 8199, 8200, 8201, 8202, 8232, 8233, 8239, 8287, 12288, 65279]

/-- JS `s.trimStart()` on `List Char`. -/
def trimLeft (l : List Char) : List Char := l.dropWhile jsWs

/-- JS `s.trimEnd()` on `List Char`. -/
def trimRight (l : List Char) : List Char := (l.reverse.dropWhile jsWs).reverse

/-- JS `s.trim()` on `List Char`. -/
def trimJS (l : List Char) : List Char := trimRight (trimLeft l)

/-- JS `s.toLowerCase()` on `List Char` (the code only lowercases ASCII data). -/
def lowerJS (l : List Char) : List Char := l.map Char.toLower

/-- Does `pre` occur at the start of `l`? -/
def listStartsWith : List Char → List Char → Bool
  | [], _ => true
  | _ :: _, [] => false
  | p :: ps, c :: cs => p = c && listStartsWith ps cs

/-- JS `hay.includes(needle)`: does `needle` occur as a contiguous substring? -/
def containsSub (needle : List Char) : List Char → Bool
  | [] => listStartsWith needle []
  | c :: cs => listStartsWith needle (c :: cs) || containsSub needle cs

/-- Insertion-order deduplication, the semantics of JS `[...new Set(l)]`
(keeps the first occurrence of each element). `seen` is the accumulator of
elements already emitted. -/
def dedupFirst (seen : List (List Char)) : List (List Char) → List (List Char)
  | [] => []
  | x :: xs => if x ∈ seen then dedupFirst seen xs else x :: dedupFirst (x :: seen) xs

/-! ## ModelCatalog (src/src/scripts/index.ts) -/

/-- `normalizeModelId`: strip a single leading `models/` namespace prefix
(`modelId.replace(/^models\//, "")`). -/
def normalizeModelId (modelId : List Char) : List Char :=
  if listStartsWith (str "models/") modelId then modelId.drop 7 else modelId

/-- The expansion of the friendly alias, most capable first (source line 21). -/
def aliasExpansion : List (List Char) :=
  [str "gemini-2.5-pro", str "gemini-2.5-pro-latest", str "gemini-1.5-pro-latest"]

/-- `resolveConfiguredModels` (source lines 11–25).  `none` models an unset
`VITE_GEMINI_MODEL`; the JS falsy test `!model` also catches the empty
string. -/
def resolveConfiguredModels (model : Option (List Char)) : List (List Char) :=
  match model with
  | none => []
  | some m =>
    if m = [] then []
    else
      let normalized := lowerJS (trimJS m)
      if normalized = str "gemini pro3" ∨ normalized = str "gemini-pro3" ∨
          normalized = str "pro3" then
        aliasExpansion
      else [trimJS m]

/-- The hand-curated fallback identifiers appended after the configured models
(source lines 29–40). -/
def curatedModels : List (List Char) :=
  [str "gemini-1.5-flash-latest", str "gemini-1.5-pro-latest", str "gemini-2.5-pro",
   str "gemini-2.5-pro-latest", str "gemini-2.5-flash", str "gemini-2.0-flash",
   str "gemini-2.0-flash-exp", str "gemini-2.0-flash-lite", str "gemini-1.5-flash"]

/-- `preferredModels` (source lines 29–40): configured models then the curated
list, with the `filter(Boolean)` dropping empty strings. -/
def preferredModels (configuredModel : Option (List Char)) : List (List Char) :=
  (resolveConfiguredModels configuredModel ++ curatedModels).filter (fun m => m ≠ [])

/-- The `orderedCandidates` merge of `getCandidateModels` (source lines
105–106): live entries appended after the static preference list when
discovery returned anything, else the static list alone. -/
def orderedCandidates (configuredModel : Option (List Char))
    (available : List (List Char)) : List (List Char) :=
  if available.length > 0 then preferredModels configuredModel ++ available
  else preferredModels configuredModel

/-- `getCandidateModels` (source lines 99–110).  The module-level mutable
`cachedModelList` is threaded explicitly: the function consumes the cache state
and returns `(result, new cache state, whether discovery ran)`.  `available`
is the oracle result of `listAvailableModels`.  A cached empty list is truthy
in JS (`if (cachedModelList) return cachedModelList`), which `Option` models
exactly. -/
def getCandidateModels (configuredModel : Option (List Char))
    (cache : Option (List (List Char))) (available : List (List Char)) :
    List (List Char) × Option (List (List Char)) × Bool :=
  match cache with
  | some l => (l, some l, false)
  | none =>
    let r := dedupFirst [] ((orderedCandidates configuredModel available).map normalizeModelId)
    (r, some r, true)

/-! ## ResilientInvoker (`chatSession.sendMessage`, source lines 112–135) -/

/-- JS `Array.prototype.join(sep)` on a list of strings. -/
def joinSep (sep : List Char) : List (List Char) → List Char
  | [] => []
  | [x] => x
  | x :: y :: rest => x ++ sep ++ joinSep sep (y :: rest)

/-- The aggregate error message thrown after the sweep exhausts every
candidate (source lines 130–134): it enumerates the full candidate list and
carries the last underlying error's message, or `"Unknown error"` when no
error was recorded (`lastError` still `null`, or not an `Error`). -/
def geminiFailedMsg (candidates : List (List Char)) (lastError : Option (List Char)) :
    List Char :=
  str "Gemini failed for models: " ++ joinSep (str ", ") candidates ++
    str ". " ++ lastError.getD (str "Unknown error")

/-- The candidate sweep (the `for` loop of `sendMessage`).  `gen` is the
network oracle giving the outcome of one generation call against one model id;
`all` is the full candidate list used by the aggregate message.  Returns the
outcome together with the list of model ids actually attempted, in order. -/
def sendLoop (gen : List Char → Except (List Char) (List Char))
    (all : List (List Char)) :
    List (List Char) → Option (List Char) →
    Except (List Char) (List Char) × List (List Char)
  | [], lastError => (.error (geminiFailedMsg all lastError), [])
  | c :: cs, _ =>
    let modelId := normalizeModelId c
    match gen modelId with
    | .ok r => (.ok r, [modelId])
    | .error e =>
      let rec' := sendLoop gen all cs (some e)
      (rec'.1, modelId :: rec'.2)

/-- `chatSession.sendMessage` (source lines 112–135).  The credential check
precedes candidate resolution, so with no key neither discovery nor any
generation call happens.  Returns (outcome, attempted model ids, whether the
discovery endpoint was called). -/
def sendMessage (apiKey : List Char) (configuredModel : Option (List Char))
    (cache : Option (List (List Char))) (available : List (List Char))
    (gen : List Char → Except (List Char) (List Char)) :
    Except (List Char) (List Char) × List (List Char) × Bool :=
  if apiKey = [] then (.error (str "Missing VITE_GEMINI_API_KEY"), [], false)
  else
    let resolved := getCandidateModels configuredModel cache available
    let r := sendLoop gen resolved.1 resolved.1 none
    (r.1, r.2, resolved.2.2)

/-! ## JSON values and `JSON.parse`

A few delimiter characters are introduced as named `Char.ofNat` constants
(code points 34, 92, 96, 123, 125) so the development can refer to them
uniformly. -/

/-- The double-quote character `"`. -/
def quoteChar : Char := Char.ofNat 34

/-- The backslash character. -/
def backslashChar : Char := Char.ofNat 92

/-- The backtick character used by markdown code fences. -/
def backtick : Char := Char.ofNat 96

/-- The opening curly brace. -/
def lbrace : Char := Char.ofNat 123

/-- The closing curly brace. -/
def rbrace : Char := Char.ofNat 125

/-- Parsed JSON values.  Numbers keep their source token: the code under
verification never computes with parsed numbers, so their numeric (floating
point) interpretation is irrelevant and left unmodelled. -/
inductive Json where
  | null : Json
  | bool (b : Bool) : Json
  | num (tok : List Char) : Json
  | str (s : List Char) : Json
  | arr (elems : List Json) : Json
  | obj (fields : List (List Char × Json)) : Json

/-- Skip JSON insignificant whitespace. -/
def skipWs (s : List Char) : List Char := s.dropWhile jsonWs

/-- A decimal digit, by code point. -/
def isDig (c : Char) : Bool := 48 ≤ c.toNat && c.toNat ≤ 57

/-- Value of a hexadecimal digit. -/
def hexVal (c : Char) : Option Nat :=
  if 48 ≤ c.toNat ∧ c.toNat ≤ 57 then some (c.toNat - 48)
  else if 97 ≤ c.toNat ∧ c.toNat ≤ 102 then some (c.toNat - 87)
  else if 65 ≤ c.toNat ∧ c.toNat ≤ 70 then some (c.toNat - 55)
  else none

/-- Decoding of a single-character JSON string escape. -/
def escChar (e : Char) : Option Char :=
  if e = quoteChar then some quoteChar
  else if e = backslashChar then some backslashChar
  else if e = '/' then some '/'
  else if e = 'b' then some (Char.ofNat 8)
  else if e = 'f' then some (Char.ofNat 12)
  else if e = 'n' then some (Char.ofNat 10)
  else if e = 'r' then some (Char.ofNat 13)
  else if e = 't' then some (Char.ofNat 9)
  else none

/-- Parse the body of a JSON string literal (the opening quote already
consumed); returns the decoded content and the input after the closing quote.
Raw control characters (code point below 32) are rejected, as strict JSON
requires. -/
def parseStringBody : Nat → List Char → Option (List Char × List Char)
  | 0, _ => none
  | f + 1, s =>
    match s with
    | [] => none
    | c :: r =>
      if c = quoteChar then some ([], r)
      else if c = backslashChar then
        match r with
        | [] => none
        | e :: r2 =>
          if e = 'u' then
            match r2 with
            | h1 :: h2 :: h3 :: h4 :: r3 =>
              match hexVal h1, hexVal h2, hexVal h3, hexVal h4 with
              | some a, some b, some c2, some d =>
                match parseStringBody f r3 with
                | some (cs, rr) =>
                  some (Char.ofNat (((a * 16 + b) * 16 + c2) * 16 + d) :: cs, rr)
                | none => none
              | _, _, _, _ => none
            | _ => none
          else
            match escChar e with
            | some ec =>
              match parseStringBody f r2 with
              | some (cs, rr) => some (ec :: cs, rr)
              | none => none
            | none => none
      else if c.toNat < 32 then none
      else
        match parseStringBody f r with
        | some (cs, rr) => some (c :: cs, rr)
        | none => none

/-- Characters that can occur in a JSON number token. -/
def numChar (c : Char) : Bool :=
  isDig c || c = '.' || c = 'e' || c = 'E' || c = '+' || c = '-'

/-- A nonzero decimal digit. -/
def digit19 (c : Char) : Bool := 49 ≤ c.toNat && c.toNat ≤ 57

/-- Validity of an exponent tail (after `e`/`E`): optional sign, then at least
one digit, then end of token. -/
def validExpTail : List Char → Bool
  | [] => false
  | '+' :: r => !r.isEmpty && r.all isDig
  | '-' :: r => !r.isEmpty && r.all isDig
  | r => !r.isEmpty && r.all isDig

/-- Validity of a number token after the fraction digits: optional exponent. -/
def validAfterFrac : List Char → Bool
  | [] => true
  | 'e' :: r => validExpTail r
  | 'E' :: r => validExpTail r
  | _ => false

/-- Validity of a number token after the integer part: optional fraction,
optional exponent. -/
def validAfterInt : List Char → Bool
  | [] => true
  | '.' :: r => !(r.takeWhile isDig).isEmpty && validAfterFrac (r.dropWhile isDig)
  | 'e' :: r => validExpTail r
  | 'E' :: r => validExpTail r
  | _ => false

/-- Validity of an unsigned JSON number token (`0` or a nonzero-leading digit
run, then fraction/exponent). -/
def validUnsigned : List Char → Bool
  | [] => false
  | '0' :: r => validAfterInt r
  | c :: r => digit19 c && validAfterInt (r.dropWhile isDig)

/-- Validity of a complete JSON number token (RFC 8259 grammar). -/
def validNumTok : List Char → Bool
  | '-' :: r => validUnsigned r
  | t => validUnsigned t

/-- Parse a JSON number: take the maximal run of number characters and check
it against the JSON number grammar (equivalent to the grammar's own
maximal-munch behaviour at every position where `JSON.parse` reads a
number). -/
def parseNumber (s : List Char) : Option (Json × List Char) :=
  let tok := s.takeWhile numChar
  if validNumTok tok then some (.num tok, s.dropWhile numChar) else none

/-- Parse a fixed literal (`null`, `true`, `false`). -/
def parseLit (lit : List Char) (v : Json) (s : List Char) : Option (Json × List Char) :=
  if listStartsWith lit s then some (v, s.drop lit.length) else none

mutual

/-- Parse one JSON value, returning it and the unconsumed rest.  Fuelled;
`jsonParse` supplies ample fuel. -/
def parseValue : Nat → List Char → Option (Json × List Char)
  | 0, _ => none
  | f + 1, s =>
    match s with
    | [] => none
    | c :: rest =>
      if c = quoteChar then
        match parseStringBody (rest.length + 1) rest with
        | some (content, r) => some (.str content, r)
        | none => none
      else if c = '[' then
        match skipWs rest with
        | [] => none
        | c2 :: t2 =>
          if c2 = ']' then some (.arr [], t2)
          else
            match parseElems f (c2 :: t2) with
            | some (l, r1) =>
              match r1 with
              | [] => none
              | c3 :: r2 => if c3 = ']' then some (.arr l, r2) else none
            | none => none
      else if c = lbrace then
        match skipWs rest with
        | [] => none
        | c2 :: t2 =>
          if c2 = rbrace then some (.obj [], t2)
          else
            match parseMembers f (c2 :: t2) with
            | some (l, r1) =>
              match r1 with
              | [] => none
              | c3 :: r2 => if c3 = rbrace then some (.obj l, r2) else none
            | none => none
      else if c = 'n' then parseLit (str "null") .null s
      else if c = 't' then parseLit (str "true") (.bool true) s
      else if c = 'f' then parseLit (str "false") (.bool false) s
      else if c = '-' ∨ isDig c = true then parseNumber s
      else none

/-- Parse a nonempty comma-separated list of JSON values; stops (without
consuming it) at the first non-comma token after an element, having skipped
the whitespace before it. -/
def parseElems : Nat → List Char → Option (List Json × List Char)
  | 0, _ => none
  | f + 1, s =>
    match parseValue f s with
    | some (v, r) =>
      match skipWs r with
      | [] => some ([v], [])
      | c2 :: t2 =>
        if c2 = ',' then
          match parseElems f (skipWs t2) with
          | some (l, rr) => some (v :: l, rr)
          | none => none
        else some ([v], c2 :: t2)
    | none => none

/-- Parse a nonempty comma-separated list of JSON object members; stops
(without consuming it) at the first non-comma token after a member. -/
def parseMembers : Nat → List Char → Option (List (List Char × Json) × List Char)
  | 0, _ => none
  | f + 1, s =>
    match s with
    | [] => none
    | c :: r =>
      if c = quoteChar then
        match parseStringBody (r.length + 1) r with
        | some (key, r1) =>
          match skipWs r1 with
          | [] => none
          | c2 :: r2 =>
            if c2 = ':' then
              match parseValue f (skipWs r2) with
              | some (v, r3) =>
                match skipWs r3 with
                | [] => some ([(key, v)], [])
                | c3 :: r4 =>
                  if c3 = ',' then
                    match parseMembers f (skipWs r4) with
                    | some (l, rr) => some ((key, v) :: l, rr)
                    | none => none
                  else some ([(key, v)], c3 :: r4)
              | none => none
            else none
        | none => none
      else none

end

/-- The model of `JSON.parse`: skip leading whitespace, parse one value,
demand that only whitespace remains.  The fuel `2 * length + 2` comfortably
bounds the recursion (each two nested frames consume at least one
character). -/
def jsonParse (s : List Char) : Option Json :=
  match parseValue (2 * s.length + 2) (skipWs s) with
  | some (v, r) => if r.all jsonWs then some v else none
  | none => none

/-! ## ResponseSanitizer (src/unnamed/part_002) -/

/-- The scanner state of `extractFirstJsonArray` (source lines 58–61):
`start = none` models `start = -1`. -/
structure ScanSt where
  start : Option Nat
  depth : Nat
  inString : Bool
  isEscaped : Bool

/-- One iteration of the loop body of `extractFirstJsonArray` (source lines
63–98) on the character `c` at index `i`: either the early
`return text.slice(start, i + 1)` (`Except.error (start, i)`) or the next
state. -/
def scanStep (c : Char) (i : Nat) (st : ScanSt) : Except (Nat × Nat) ScanSt :=
  if st.inString then
    if st.isEscaped then .ok { st with isEscaped := false }
    else if c = backslashChar then .ok { st with isEscaped := true }
    else if c = quoteChar then .ok { st with inString := false }
    else .ok st
  else if c = quoteChar then .ok { st with inString := true }
  else if c = '[' then
    .ok { st with start := if st.depth = 0 then some i else st.start,
                  depth := st.depth + 1 }
  else if c = ']' then
    if st.depth > 0 then
      if st.depth = 1 then
        match st.start with
        | some s0 => .error (s0, i)
        | none => .ok { st with depth := 0 }
      else .ok { st with depth := st.depth - 1 }
    else .ok st
  else .ok st

/-- The whole scanner loop (source lines 63–98), iterating `scanStep`:
`.error (s0, i)` models the early return, `.ok st` the state after falling
off the end of the loop. -/
def goScan : List Char → Nat → ScanSt → Except (Nat × Nat) ScanSt
  | [], _, st => .ok st
  | c :: cs, i, st =>
    match scanStep c i st with
    | .error e => .error e
    | .ok st2 => goScan cs (i + 1) st2

/-- `extractFirstJsonArray` (source lines 57–101): the substring from the
first depth-0 `[` through its matching `]`, or `none` if no balanced array is
found. -/
def extractFirstJsonArray (text : List Char) : Option (List Char) :=
  match goScan text 0 ⟨none, 0, false, false⟩ with
  | .error (s0, i) => some ((text.drop s0).take (i + 1 - s0))
  | .ok _ => none

/-- The first fence-removal pass, `replace(/```(?:json)?/gi, "")`: every
occurrence of three backticks, optionally followed by `json` in any case, is
deleted, scanning left to right.  Fuelled so that the definition reduces
definitionally; `removeFencesA` supplies fuel no smaller than the input
length, and each step consumes at least one character, so the fuel never runs
out. -/
def removeFencesAGo : Nat → List Char → List Char
  | 0, l => l
  | _ + 1, [] => []
  | fuel + 1, c :: cs =>
    if c = backtick then
      match cs with
      | c2 :: c3 :: rest =>
        if c2 = backtick && c3 = backtick then
          match rest with
          | a :: b :: c4 :: d :: rest2 =>
            if a.toLower = 'j' && b.toLower = 's' && c4.toLower = 'o' && d.toLower = 'n'
            then removeFencesAGo fuel rest2
            else removeFencesAGo fuel rest
          | _ => removeFencesAGo fuel rest
        else c :: removeFencesAGo fuel cs
      | _ => c :: removeFencesAGo fuel cs
    else c :: removeFencesAGo fuel cs

/-- The first fence-removal pass at adequate fuel. -/
def removeFencesA (l : List Char) : List Char := removeFencesAGo l.length l

/-- The second fence-removal pass, `replace(/```/g, "")`, fuelled like
`removeFencesAGo`. -/
def removeFencesBGo : Nat → List Char → List Char
  | 0, l => l
  | _ + 1, [] => []
  | fuel + 1, c :: cs =>
    if c = backtick then
      match cs with
      | c2 :: c3 :: rest =>
        if c2 = backtick && c3 = backtick then removeFencesBGo fuel rest
        else c :: removeFencesBGo fuel cs
      | _ => c :: removeFencesBGo fuel cs
    else c :: removeFencesBGo fuel cs

/-- The second fence-removal pass at adequate fuel. -/
def removeFencesB (l : List Char) : List Char := removeFencesBGo l.length l

/-- The three-character markdown fence marker that both removal passes look
for. -/
def fenceMarker : List Char := [backtick, backtick, backtick]

/-- The control-character repair of `cleanAiResponse` (source lines 154–156):
any character with code point below 32 becomes a single space. -/
def ctrlToSpace (c : Char) : Char := if c.toNat < 32 then ' ' else c

/-- The message prefix of the `MalformedResponse` error (source line 161);
the engine-specific `SyntaxError` suffix is abstracted away. -/
def invalidJsonMsg : List Char := str "Invalid JSON format: "

/-- `cleanAiResponse` (source lines 147–163): trim, strip markdown fences,
trim, extract the first balanced JSON array (falling back to the whole
cleaned text), replace control characters by spaces, and `JSON.parse` the
result. -/
def cleanAiResponse (responseText : List Char) : Except (List Char) Json :=
  let cleanText := trimJS responseText
  let cleanText2 := trimJS (removeFencesB (removeFencesA cleanText))
  let extractedArray := (extractFirstJsonArray cleanText2).getD cleanText2
  let normalized := extractedArray.map ctrlToSpace
  match jsonParse normalized with
  | some j => .ok j
  | none => .error invalidJsonMsg

/-- One question/answer pair (the `InterviewQuestion` type of the source). -/
structure InterviewQuestion where
  question : List Char
  answer : List Char
deriving DecidableEq

/-- JS object property lookup on the field list produced by `JSON.parse`
(a duplicated key in the JSON text leaves its last occurrence). -/
def jsonLookup (fields : List (List Char × Json)) (key : List Char) : Option Json :=
  fields.foldl (fun acc p => if p.1 = key then some p.2 else acc) none

/-- The per-element check of `isValidQuestions` (source lines 168–180):
the element must be an object (in JS, `null` fails the null check and
non-objects fail the typeof check; arrays pass typeof but have no `question`
property) with string `question` and `answer` fields of positive trimmed
length. -/
def isValidItem (item : Json) : Bool :=
  match item with
  | .obj fs =>
    (match jsonLookup fs (str "question") with
     | some (.str q) => decide (0 < (trimJS q).length)
     | _ => false) &&
    (match jsonLookup fs (str "answer") with
     | some (.str a) => decide (0 < (trimJS a).length)
     | _ => false)
  | _ => false

/-- `isValidQuestions` (source lines 165–181): an array whose every element
passes `isValidItem`. -/
def isValidQuestions (data : Json) : Bool :=
  match data with
  | .arr items => items.all isValidItem
  | _ => false

/-- Read a string field of a parsed object (used only on values that passed
`isValidQuestions`, where the field is guaranteed to be a string). -/
def getStrField (fs : List (List Char × Json)) (key : List Char) : List Char :=
  match jsonLookup fs key with
  | some (.str s) => s
  | _ => []

/-- The `InterviewQuestion` view of one parsed array element. -/
def toQuestion (item : Json) : InterviewQuestion :=
  match item with
  | .obj fs => ⟨getStrField fs (str "question"), getStrField fs (str "answer")⟩
  | _ => ⟨[], []⟩

/-- The `InterviewQuestion[]` view of a parsed value that passed
`isValidQuestions`. -/
def toQuestions (data : Json) : List InterviewQuestion :=
  match data with
  | .arr items => items.map toQuestion
  | _ => []

/-- The `UnexpectedShape` error message (source line 237). -/
def shapeErrorMsg : List Char := str "AI returned unexpected question format"

/-- The shape-validation step of `generateAiResponse` (source lines 236–240). -/
def validateQuestions (j : Json) : Except (List Char) (List InterviewQuestion) :=
  if isValidQuestions j then .ok (toQuestions j) else .error shapeErrorMsg

/-- The full ResponseSanitizer contract: `cleanAiResponse` followed by the
shape validation, as run by `generateAiResponse` on the raw model output. -/
def parseSanitize (raw : List Char) : Except (List Char) (List InterviewQuestion) :=
  match cleanAiResponse raw with
  | .ok j => validateQuestions j
  | .error e => .error e

/-! ### Statements of the parser/scanner correspondence used by the C5
round-trip theorem.  These are `Prop`-valued definitions abbreviating the
induction invariants. -/

/-- Rests at which a number-token munch cannot be extended: empty, or headed
by a non-number character. -/
def stopV : List Char → Prop
  | [] => True
  | c :: _ => numChar c = false

/-- Rests at which `parseElems`/`parseMembers` stop scanning unchanged:
empty, or headed by a character that is not a number character, not
whitespace, and not a comma (in a successful parse this is `]` or `}`). -/
def stopE : List Char → Prop
  | [] => True
  | c :: _ => numChar c = false ∧ jsonWs c = false ∧ c ≠ ','

/-- Facts about the first character of the text consumed by a value parse:
it is a dispatch character, hence not whitespace, not a control character,
and none of the structural closers/separators. -/
def valueHead (c : Char) : Prop :=
  jsonWs c = false ∧ ctrlToSpace c = c ∧ c ≠ ']' ∧ c ≠ rbrace ∧ c ≠ ','

/-- The text `C` is invisible to the bracket scanner when scanned from any
non-string state of positive depth: the scan runs off its end with the state
unchanged (in particular it contains no early return). -/
def scanOk (C : List Char) : Prop :=
  ∀ (i d : Nat) (s0 : Option Nat), 1 ≤ d →
    goScan C i ⟨s0, d, false, false⟩ = .ok ⟨s0, d, false, false⟩

/-- The induction invariant for `parseValue` at fuel `f`: a successful parse
splits its input as consumed-plus-rest, where the consumed text starts with a
dispatch character, re-parses (after the control-character repair, which is
how the pipeline re-reads it) against any stopper rest at any sufficient
fuel, and is invisible to the bracket scanner. -/
def PVStmt (f : Nat) : Prop :=
  ∀ s v r, parseValue f s = some (v, r) →
    ∃ c C', s = (c :: C') ++ r ∧ valueHead c ∧
      (∀ g r2, 2 * (c :: C').length + 1 ≤ g → stopV r2 →
        parseValue g ((c :: C').map ctrlToSpace ++ r2) = some (v, r2)) ∧
      scanOk (c :: C')

/-- The induction invariant for `parseElems` at fuel `f`. -/
def PEStmt (f : Nat) : Prop :=
  ∀ s l r, parseElems f s = some (l, r) →
    ∃ c C', s = (c :: C') ++ r ∧ valueHead c ∧
      (∀ g r2, 2 * (c :: C').length + 2 ≤ g → stopE r2 →
        parseElems g ((c :: C').map ctrlToSpace ++ r2) = some (l, r2)) ∧
      scanOk (c :: C')

/-- The induction invariant for `parseMembers` at fuel `f`. -/
def PMStmt (f : Nat) : Prop :=
  ∀ s l r, parseMembers f s = some (l, r) →
    ∃ c C', s = (c :: C') ++ r ∧ valueHead c ∧
      (∀ g r2, 2 * (c :: C').length + 2 ≤ g → stopE r2 →
        parseMembers g ((c :: C').map ctrlToSpace ++ r2) = some (l, r2)) ∧
      scanOk (c :: C')

/-! ## GenerationOrchestrator (the generation phase of `onSubmit`,
source lines 54–55, 103–119, 183–211, 213–241, 243–278) -/

/-- The `FormData` of the submission form (`position`, `description`,
`experience`, `techStack`).  `experience` is coerced to a number by the form
schema; it only ever flows into the prompt text, rendered here with `toString`
(fractional values are not modelled). -/
structure FormData where
  position : List Char
  description : List Char
  experience : Int
  techStack : List Char

/-- `buildFallbackQuestions` (source lines 183–211): the deterministic
fallback question set, a pure function of the job fields. -/
def buildFallbackQuestions (data : FormData) : List InterviewQuestion :=
  [⟨str "Introduce your approach to building a " ++ data.position ++
      str " project using " ++ data.techStack ++ str ".",
    str "Define requirements, design architecture, break work into milestones, implement iteratively, and validate with tests and monitoring."⟩,
   ⟨str "How would you structure a scalable codebase for " ++ data.position ++ str "?",
    str "Use modular boundaries, separate concerns, enforce code standards, add shared utilities, and document conventions for long-term maintainability."⟩,
   ⟨str "How do you handle debugging and performance issues in " ++ data.techStack ++ str "?",
    str "Reproduce reliably, collect logs/metrics, profile bottlenecks, fix root causes, and verify improvements with measurable benchmarks."⟩,
   ⟨str "What testing strategy would you follow for this role?",
    str "Combine unit, integration, and end-to-end tests with CI checks to prevent regressions and ensure release confidence."⟩,
   ⟨str "How do you collaborate with product/design teams on ambiguous requirements?",
    str "Clarify assumptions early, align on acceptance criteria, communicate tradeoffs, and iterate with frequent feedback loops."⟩]

/-- The prompt template of `generateAiResponse` (source lines 216–231). -/
def buildPrompt (data : FormData) : List Char :=
  str "\n        As an experienced prompt engineer, generate a JSON array containing 5 technical interview questions along with detailed answers based on the following job information. Each object in the array should have the fields \"question\" and \"answer\", formatted as follows:\n\n        [\n          \x7b \"question\": \"<Question text>\", \"answer\": \"<Answer text>\" \x7d,\n          ...\n        ]\n\n        Job Information:\n        - Job Position: " ++
  data.position ++
  str "\n        - Job Description: " ++ data.description ++
  str "\n        - Years of Experience Required: " ++ (toString data.experience).data ++
  str "\n        - Tech Stacks: " ++ data.techStack ++
  str "\n\n        The questions should assess skills in " ++ data.techStack ++
  str " development and best practices, problem-solving, and experience handling complex requirements. Please format the output strictly as an array of JSON objects without any additional labels, code blocks, or explanations. Return only the JSON array with questions and answers.\n        "

/-- The environment of one `onSubmit` generation phase: the process
configuration (credential, configured model, catalog cache), the discovery
oracle, the per-sweep generation oracle (`retry` selects the sweep, since the
retry repeats the whole candidate sweep against the network), and the two
timeout-race oracles. -/
structure GenEnv where
  apiKey : List Char
  configuredModel : Option (List Char)
  cachedModelList : Option (List (List Char))
  available : List (List Char)
  genCall : Bool → List Char → List Char → Except (List Char) (List Char)
  primaryTimedOut : Bool
  retryTimedOut : Bool

/-- `withTimeout` (source lines 103–119): races `result` against a timer; the
oracle `timedOut` says whether the timer won, in which case the timeout
`Error` with `message` is the outcome. -/
def withTimeout {α : Type} (timedOut : Bool) (message : List Char)
    (result : Except (List Char) α) : Except (List Char) α :=
  if timedOut then .error message else result

/-- `AI_TIMEOUT_MS` (source line 54). -/
def AI_TIMEOUT_MS : Nat := 60000

/-- `AI_RETRY_TIMEOUT_MS` (source line 55). -/
def AI_RETRY_TIMEOUT_MS : Nat := 90000

/-- `generateAiResponse` (source lines 213–241): build the prompt, run the
candidate sweep, sanitize and validate the raw response. -/
def generateAiResponse (env : GenEnv) (retry : Bool) (data : FormData) :
    Except (List Char) (List InterviewQuestion) :=
  let prompt := buildPrompt data
  match (sendMessage env.apiKey env.configuredModel env.cachedModelList env.available
      (fun m => env.genCall retry m prompt)).1 with
  | .ok raw => parseSanitize raw
  | .error e => .error e

/-- The outcome of one orchestrated generation: the questions handed to
persistence, the user-visible warnings emitted (`toast.warning`
descriptions), and the timeout budgets of the generation attempts made, in
order. -/
structure GenResult where
  questions : List InterviewQuestion
  warnings : List (List Char)
  attempts : List Nat
deriving DecidableEq

/-- The description of the degraded-path warning toast (source lines 267–269
and 274–276). -/
def fallbackWarning (reason : List Char) : List Char :=
  str "Using fallback interview questions for now. (" ++ reason ++ str ")"

/-- The timeout marker substring the orchestrator sniffs for (source line
253). -/
def timeoutMarker : List Char := str "timed out"

/-- The question-generation phase of `onSubmit` (source lines 248–278): a
primary attempt bounded by 60s; on a failure whose lowercased message contains
the timeout marker, one retry bounded by 90s; any other failure, or a retry
failure, degrades to the deterministic fallback with one warning. -/
def generateQuestions (env : GenEnv) (data : FormData) : GenResult :=
  match withTimeout env.primaryTimedOut (str "AI generation timed out")
      (generateAiResponse env false data) with
  | .ok qs => ⟨qs, [], [AI_TIMEOUT_MS]⟩
  | .error e =>
    if containsSub timeoutMarker (lowerJS e) then
      match withTimeout env.retryTimedOut (str "AI generation timed out after retry")
          (generateAiResponse env true data) with
      | .ok qs => ⟨qs, [], [AI_TIMEOUT_MS, AI_RETRY_TIMEOUT_MS]⟩
      | .error re =>
        ⟨buildFallbackQuestions data, [fallbackWarning re],
         [AI_TIMEOUT_MS, AI_RETRY_TIMEOUT_MS]⟩
    else ⟨buildFallbackQuestions data, [fallbackWarning e], [AI_TIMEOUT_MS]⟩

/-! ## Helper lemmas -/

theorem mem_dedupFirst {x : List Char} :
    ∀ (l : List (List Char)) (seen : List (List Char)),
    x ∈ dedupFirst seen l ↔ x ∈ l ∧ x ∉ seen := by
  intro l
  induction l with
  | nil => intro seen; simp [dedupFirst]
  | cons y ys ih =>
    intro seen
    by_cases hy : y ∈ seen
    · simp only [dedupFirst, if_pos hy, ih]
      constructor
      · rintro ⟨hx, hs⟩; exact ⟨List.mem_cons_of_mem _ hx, hs⟩
      · rintro ⟨hx, hs⟩
        rcases List.mem_cons.mp hx with rfl | hx
        · exact absurd hy hs
        · exact ⟨hx, hs⟩
    · simp only [dedupFirst, if_neg hy, List.mem_cons, ih]
      constructor
      · rintro (rfl | ⟨hx, hs⟩)
        · exact ⟨Or.inl rfl, hy⟩
        · exact ⟨Or.inr hx, fun hc => hs (Or.inr hc)⟩
      · rintro ⟨rfl | hx, hs⟩
        · exact Or.inl rfl
        · by_cases hxy : x = y
          · exact Or.inl hxy
          · exact Or.inr ⟨hx, fun hc => hc.elim hxy hs⟩

theorem nodup_dedupFirst :
    ∀ (l : List (List Char)) (seen : List (List Char)), (dedupFirst seen l).Nodup := by
  intro l
  induction l with
  | nil => intro seen; simp [dedupFirst]
  | cons y ys ih =>
    intro seen
    by_cases hy : y ∈ seen
    · simpa [dedupFirst, if_pos hy] using ih seen
    · simp only [dedupFirst, if_neg hy]
      refine List.nodup_cons.mpr ⟨fun hc => ?_, ih _⟩
      exact ((mem_dedupFirst ys (y :: seen)).mp hc).2 (List.mem_cons_self _ _)

theorem sublist_dedupFirst :
    ∀ (l : List (List Char)) (seen : List (List Char)), (dedupFirst seen l).Sublist l := by
  intro l
  induction l with
  | nil => intro seen; simp [dedupFirst]
  | cons y ys ih =>
    intro seen
    by_cases hy : y ∈ seen
    · simpa [dedupFirst, if_pos hy] using (ih seen).cons y
    · simpa [dedupFirst, if_neg hy] using (ih (y :: seen)).cons₂ y

theorem allWs_dropWhile_iff (l : List Char) :
    (∀ c ∈ l.dropWhile jsWs, jsWs c) ↔ (∀ c ∈ l, jsWs c) := by
  constructor
  · intro h c hc
    rw [← List.takeWhile_append_dropWhile (p := jsWs) (l := l)] at hc
    rcases List.mem_append.mp hc with h1 | h2
    · exact List.mem_takeWhile_imp h1
    · exact h c h2
  · intro h c hc
    exact h c ((List.dropWhile_suffix jsWs).sublist.subset hc)

theorem trimJS_eq_nil_iff (l : List Char) : trimJS l = [] ↔ ∀ c ∈ l, jsWs c := by
  unfold trimJS trimRight trimLeft
  rw [List.reverse_eq_nil_iff, List.dropWhile_eq_nil_iff]
  simp only [List.mem_reverse]
  exact allWs_dropWhile_iff l

theorem trimJS_ne_nil (l : List Char) (c : Char) (hc : c ∈ l) (hw : jsWs c = false) :
    trimJS l ≠ [] := fun h => by
  simpa [hw] using (trimJS_eq_nil_iff l).mp h c hc

/-! ## Claim theorems: ModelCatalog -/

/-- C7 counterexample: the claim says that for a non-alias, non-empty
configured string, resolution yields *exactly that string* as a singleton
list.  For `" custom-model "` (non-empty, not the nickname under
case-insensitive whitespace-trimmed comparison) the code returns the
*trimmed* string, so the singleton is not the configured string itself. -/
theorem c7_counterexample :
    str " custom-model " ≠ [] ∧
    lowerJS (trimJS (str " custom-model ")) ≠ str "gemini pro3" ∧
    lowerJS (trimJS (str " custom-model ")) ≠ str "gemini-pro3" ∧
    lowerJS (trimJS (str " custom-model ")) ≠ str "pro3" ∧
    resolveConfiguredModels (some (str " custom-model ")) ≠ [str " custom-model "] ∧
    resolveConfiguredModels (some (str " custom-model ")) = [str "custom-model"] := by
  decide

/-- C7 (amended): a non-empty configured string matching one of the nickname
forms `gemini pro3` / `gemini-pro3` / `pro3` after case-insensitive,
whitespace-trimmed comparison resolves to the fixed ordered expansion list;
every other non-empty configured string resolves to the singleton of its
whitespace-trimmed form. -/
theorem c7_alias_resolution (m : List Char) (hm : m ≠ []) :
    (lowerJS (trimJS m) = str "gemini pro3" ∨ lowerJS (trimJS m) = str "gemini-pro3" ∨
        lowerJS (trimJS m) = str "pro3" →
      resolveConfiguredModels (some m) = aliasExpansion) ∧
    (lowerJS (trimJS m) ≠ str "gemini pro3" → lowerJS (trimJS m) ≠ str "gemini-pro3" →
        lowerJS (trimJS m) ≠ str "pro3" →
      resolveConfiguredModels (some m) = [trimJS m]) := by
  constructor
  · intro h
    simp only [resolveConfiguredModels, if_neg hm]
    rw [if_pos]
    exact h
  · intro h1 h2 h3
    simp only [resolveConfiguredModels, if_neg hm]
    rw [if_neg]
    rintro (h | h | h)
    exacts [h1 h, h2 h, h3 h]

/-- C7 witness: both branches of `c7_alias_resolution` instantiated — the
nickname written `" PRO3 "` expands to the fixed list, and a plain model name
resolves to its trimmed singleton. -/
theorem c7_witness :
    resolveConfiguredModels (some (str " PRO3 ")) = aliasExpansion ∧
    resolveConfiguredModels (some (str "gemini-9.9-ultra")) = [trimJS (str "gemini-9.9-ultra")] :=
  ⟨(c7_alias_resolution (str " PRO3 ") (by decide)).1 (by decide),
   (c7_alias_resolution (str "gemini-9.9-ultra") (by decide)).2
     (by decide) (by decide) (by decide)⟩

/-- C9: the catalog is memoized — a first call (empty cache) performs
discovery and fills the cache, and any subsequent call returns the cached
list unchanged without discovery; and the resolved list is duplicate-free,
consists exactly of the normalized forms of the merged static/live source
entries, and preserves their first-occurrence order (it is a sublist of the
normalized source sequence containing every normalized entry). -/
theorem c9_catalog_cache_dedup (cfg : Option (List Char))
    (available available2 : List (List Char)) :
    (getCandidateModels cfg none available).2.2 = true ∧
    (getCandidateModels cfg
        (getCandidateModels cfg none available).2.1 available2).1 =
      (getCandidateModels cfg none available).1 ∧
    (getCandidateModels cfg
        (getCandidateModels cfg none available).2.1 available2).2.1 =
      (getCandidateModels cfg none available).2.1 ∧
    (getCandidateModels cfg
        (getCandidateModels cfg none available).2.1 available2).2.2 = false ∧
    (getCandidateModels cfg none available).1.Nodup ∧
    (∀ x, x ∈ (getCandidateModels cfg none available).1 ↔
      x ∈ (orderedCandidates cfg available).map normalizeModelId) ∧
    (getCandidateModels cfg none available).1.Sublist
      ((orderedCandidates cfg available).map normalizeModelId) := by
  refine ⟨rfl, rfl, rfl, rfl, nodup_dedupFirst _ _, ?_, sublist_dedupFirst _ _⟩
  intro x
  show x ∈ dedupFirst [] ((orderedCandidates cfg available).map normalizeModelId) ↔ _
  rw [mem_dedupFirst]
  simp

/-! ## Claim theorem: the deterministic fallback (C10) -/

/-- The fallback question set always consists of exactly 5 pairs with
non-empty trimmed fields (shared between the C10 and C1 theorems). -/
theorem fallbackQuestions_facts (data : FormData) :
    (buildFallbackQuestions data).length = 5 ∧
    ∀ q ∈ buildFallbackQuestions data,
      trimJS q.question ≠ [] ∧ trimJS q.answer ≠ [] := by
  refine ⟨rfl, ?_⟩
  intro q hq
  simp only [buildFallbackQuestions, List.mem_cons, List.not_mem_nil, or_false] at hq
  rcases hq with rfl | rfl | rfl | rfl | rfl
  · exact ⟨trimJS_ne_nil _ 'I' (by simp [str]) (by decide),
      trimJS_ne_nil _ 'D' (by simp [str]) (by decide)⟩
  · exact ⟨trimJS_ne_nil _ 'H' (by simp [str]) (by decide),
      trimJS_ne_nil _ 'U' (by simp [str]) (by decide)⟩
  · exact ⟨trimJS_ne_nil _ 'H' (by simp [str]) (by decide),
      trimJS_ne_nil _ 'R' (by simp [str]) (by decide)⟩
  · exact ⟨trimJS_ne_nil _ 'W' (by simp [str]) (by decide),
      trimJS_ne_nil _ 'C' (by simp [str]) (by decide)⟩
  · exact ⟨trimJS_ne_nil _ 'H' (by simp [str]) (by decide),
      trimJS_ne_nil _ 'C' (by simp [str]) (by decide)⟩

/-- C10: for every `FormData` — including one whose string fields are all
empty — the fallback generator returns exactly 5 pairs, each with non-empty
trimmed question and answer. -/
theorem c10_fallback_wellformed (data : FormData) :
    (buildFallbackQuestions data).length = 5 ∧
    ∀ q ∈ buildFallbackQuestions data,
      trimJS q.question ≠ [] ∧ trimJS q.answer ≠ [] :=
  fallbackQuestions_facts data

/-- C10 witness: the fallback invariants at a concrete job specification with
all string fields empty. -/
theorem c10_witness :
    (buildFallbackQuestions ⟨[], [], 0, []⟩).length = 5 ∧
    ∀ q ∈ buildFallbackQuestions ⟨[], [], 0, []⟩,
      trimJS q.question ≠ [] ∧ trimJS q.answer ≠ [] :=
  c10_fallback_wellformed ⟨[], [], 0, []⟩

/-! ## Claim theorems: ResilientInvoker -/

/-- Definitional unfolding of one sweep step. -/
theorem sendLoop_cons (gen : List Char → Except (List Char) (List Char))
    (all : List (List Char)) (p : List Char) (ps : List (List Char))
    (le : Option (List Char)) :
    sendLoop gen all (p :: ps) le =
      (match gen (normalizeModelId p) with
       | .ok r => (.ok r, [normalizeModelId p])
       | .error e =>
         ((sendLoop gen all ps (some e)).1,
          normalizeModelId p :: (sendLoop gen all ps (some e)).2)) := rfl

/-- The sweep short-circuits: with every candidate before `c` failing and `c`
succeeding, the loop returns `c`'s result having attempted exactly the
candidates through `c`. -/
theorem sendLoop_success (gen : List Char → Except (List Char) (List Char))
    (all : List (List Char)) (r : List Char) :
    ∀ (pre : List (List Char)) (c : List Char) (post : List (List Char))
      (le : Option (List Char)),
    (∀ p ∈ pre, ∃ e, gen (normalizeModelId p) = .error e) →
    gen (normalizeModelId c) = .ok r →
    sendLoop gen all (pre ++ c :: post) le = (.ok r, (pre ++ [c]).map normalizeModelId) := by
  intro pre
  induction pre with
  | nil =>
    intro c post le hpre hc
    simp [sendLoop, hc]
  | cons p ps ih =>
    intro c post le hpre hc
    obtain ⟨e, he⟩ := hpre p (List.mem_cons_self _ _)
    have hrest := ih c post (some e) (fun q hq => hpre q (List.mem_cons_of_mem _ hq)) hc
    simp [sendLoop, he, hrest]

/-- The sweep aggregates: with every candidate failing, the loop fails with
the aggregate message over the full list, carrying the error of the last
candidate, having attempted everything. -/
theorem sendLoop_allFail (gen : List Char → Except (List Char) (List Char))
    (all : List (List Char)) :
    ∀ (cs : List (List Char)) (le : Option (List Char)) (l : List Char),
    (∀ p ∈ cs, ∃ e, gen (normalizeModelId p) = .error e) →
    cs.getLast? = some l →
    ∃ m, gen (normalizeModelId l) = .error m ∧
      sendLoop gen all cs le = (.error (geminiFailedMsg all (some m)), cs.map normalizeModelId) := by
  intro cs
  induction cs with
  | nil => intro le l _ hl; simp at hl
  | cons p ps ih =>
    intro le l hfail hl
    obtain ⟨e, he⟩ := hfail p (List.mem_cons_self _ _)
    cases ps with
    | nil =>
      simp only [List.getLast?_singleton, Option.some_inj] at hl
      subst hl
      exact ⟨e, he, by simp [sendLoop, he, geminiFailedMsg]⟩
    | cons q qs =>
      have hl' : (q :: qs).getLast? = some l := by
        simpa [List.getLast?_cons_cons] using hl
      obtain ⟨m, hm, hrec⟩ :=
        ih (some e) l (fun x hx => hfail x (List.mem_cons_of_mem _ hx)) hl'
      refine ⟨m, hm, ?_⟩
      rw [sendLoop_cons, he]
      simp [hrec]

/-- C6: for a resolved candidate list `cs` (cached, hence used verbatim),
the sweep tries candidates strictly in list order: if every candidate before
some `c` fails and `c` succeeds, `sendMessage` returns `c`'s result having
attempted exactly the candidates up to and including `c` (later ones are
never attempted); and if every candidate fails, it fails with the aggregate
error enumerating the whole candidate list and carrying the last candidate's
error message. -/
theorem c6_sweep_order_shortcircuit (apiKey : List Char) (cfg : Option (List Char))
    (avail : List (List Char)) (cs : List (List Char))
    (gen : List Char → Except (List Char) (List Char)) (hk : apiKey ≠ []) :
    (∀ (pre : List (List Char)) (c : List Char) (post : List (List Char)) (r : List Char),
      cs = pre ++ c :: post →
      (∀ p ∈ pre, ∃ e, gen (normalizeModelId p) = .error e) →
      gen (normalizeModelId c) = .ok r →
      sendMessage apiKey cfg (some cs) avail gen =
        (.ok r, (pre ++ [c]).map normalizeModelId, false)) ∧
    (∀ l : List Char,
      (∀ p ∈ cs, ∃ e, gen (normalizeModelId p) = .error e) →
      cs.getLast? = some l →
      ∃ m, gen (normalizeModelId l) = .error m ∧
        sendMessage apiKey cfg (some cs) avail gen =
          (.error (geminiFailedMsg cs (some m)), cs.map normalizeModelId, false)) := by
  constructor
  · intro pre c post r hsplit hpre hc
    rw [hsplit]
    simp [sendMessage, hk, getCandidateModels,
      sendLoop_success gen (pre ++ c :: post) r pre c post none hpre hc]
  · intro l hfail hl
    obtain ⟨m, hm, hloop⟩ := sendLoop_allFail gen cs cs none l hfail hl
    exact ⟨m, hm, by simp [sendMessage, hk, getCandidateModels, hloop]⟩

/-- C6 witness: the spec's own scenario — three candidates, the first two
fail, the third succeeds; the sweep returns the third's result and the
attempted list is exactly the three candidates (no fourth attempt exists). -/
theorem c6_witness :
    sendMessage (str "key") none (some [str "m1", str "m2", str "m3"]) []
        (fun m => if m = str "m3" then .ok (str "R3") else .error (str "bad")) =
      (.ok (str "R3"), [str "m1", str "m2", str "m3"], false) := by
  have h := (c6_sweep_order_shortcircuit (str "key") none [] [str "m1", str "m2", str "m3"]
      (fun m => if m = str "m3" then .ok (str "R3") else .error (str "bad"))
      (by decide)).1 [str "m1", str "m2"] (str "m3") [] (str "R3") rfl ?_ rfl
  · simpa using h
  · intro p hp
    rcases List.mem_cons.mp hp with rfl | hp
    · exact ⟨str "bad", rfl⟩
    rcases List.mem_cons.mp hp with rfl | hp
    · exact ⟨str "bad", rfl⟩
    · simp at hp

/-- C3 counterexample: with an (injected) empty candidate list, `sendMessage`
does not fail with a distinct `NoCandidates` error carrying no context — the
thrown error is exactly the aggregate sweep-failure form (`geminiFailedMsg`)
instantiated with an empty enumeration and the `Unknown error` cause.  There
is no `NoCandidates` error anywhere in the code. -/
theorem c3_counterexample :
    sendMessage (str "key") none (some []) [] (fun _ => .error (str "e")) =
      (.error (geminiFailedMsg [] none), [], false) ∧
    geminiFailedMsg [] none = str "Gemini failed for models: . Unknown error" := by
  constructor
  · rfl
  · rfl

/-- C3 (amended): if the resolved candidate list is empty (reachable only by
injecting an empty cached list, since the static preference list is
non-empty), `sendMessage` fails with the aggregate-form error over an empty
candidate enumeration carrying `Unknown error` — the same error shape as the
all-candidates-failed case, not a distinct `NoCandidates` error. -/
theorem c3_empty_candidates_aggregate (apiKey : List Char) (cfg : Option (List Char))
    (avail : List (List Char)) (gen : List Char → Except (List Char) (List Char))
    (hk : apiKey ≠ []) :
    sendMessage apiKey cfg (some []) avail gen =
      (.error (geminiFailedMsg [] none), [], false) := by
  simp [sendMessage, hk, getCandidateModels, sendLoop]

/-- C3 witness: the amended behaviour at a concrete key and oracle. -/
theorem c3_witness :
    sendMessage (str "k2") none (some []) [] (fun _ => .ok (str "r")) =
      (.error (geminiFailedMsg [] none), [], false) :=
  c3_empty_candidates_aggregate (str "k2") none [] (fun _ => .ok (str "r")) (by decide)

/-! ## Claim theorems: credential handling (C2) -/

/-- C2 counterexample: with no credential configured, the orchestrator does
*not* surface a hard failure to the UI — the `MissingCredential` error is
caught by the generation-phase handler like any other failure and converted
into the deterministic fallback with a degraded-path warning naming it.  (The
claim asserts the opposite propagation behaviour.) -/
theorem c2_counterexample :
    generateQuestions
        ⟨[], none, none, [], fun _ _ _ => .ok (str "x"), false, false⟩
        ⟨str "Dev", str "d", 2, str "TS"⟩ =
      ⟨buildFallbackQuestions ⟨str "Dev", str "d", 2, str "TS"⟩,
       [fallbackWarning (str "Missing VITE_GEMINI_API_KEY")], [AI_TIMEOUT_MS]⟩ ∧
    (generateQuestions
        ⟨[], none, none, [], fun _ _ _ => .ok (str "x"), false, false⟩
        ⟨str "Dev", str "d", 2, str "TS"⟩).warnings ≠ [] := by
  have h : generateQuestions
      ⟨[], none, none, [], fun _ _ _ => .ok (str "x"), false, false⟩
      ⟨str "Dev", str "d", 2, str "TS"⟩ =
    ⟨buildFallbackQuestions ⟨str "Dev", str "d", 2, str "TS"⟩,
     [fallbackWarning (str "Missing VITE_GEMINI_API_KEY")], [AI_TIMEOUT_MS]⟩ := rfl
  exact ⟨h, by rw [h]; simp⟩

/-- C2 (amended): with no credential configured, `sendMessage` fails
immediately with the `MissingCredential` error before any network activity
(no candidate is attempted and the discovery endpoint is not called); in the
UI layer this failure is caught like every other generation failure and
converted into the deterministic fallback with a single warning carrying the
error message — it does not propagate as a hard failure.  (The timer oracle
is `false` because the instantaneous rejection resolves the race before the
timer.) -/
theorem c2_missing_credential_caught (env : GenEnv) (data : FormData)
    (hk : env.apiKey = []) (hp : env.primaryTimedOut = false) :
    (∀ gen, sendMessage env.apiKey env.configuredModel env.cachedModelList env.available gen =
      (.error (str "Missing VITE_GEMINI_API_KEY"), [], false)) ∧
    generateQuestions env data =
      ⟨buildFallbackQuestions data,
       [fallbackWarning (str "Missing VITE_GEMINI_API_KEY")], [AI_TIMEOUT_MS]⟩ := by
  have hsend : ∀ gen, sendMessage env.apiKey env.configuredModel env.cachedModelList
      env.available gen = (.error (str "Missing VITE_GEMINI_API_KEY"), [], false) := by
    intro gen; simp [sendMessage, hk]
  refine ⟨hsend, ?_⟩
  have hga : generateAiResponse env false data = .error (str "Missing VITE_GEMINI_API_KEY") := by
    simp [generateAiResponse, hsend]
  have hmarker : containsSub timeoutMarker (lowerJS (str "Missing VITE_GEMINI_API_KEY")) = false := by
    decide
  simp [generateQuestions, withTimeout, hp, hga, hmarker]

/-- C2 witness: the amended behaviour at a concrete environment. -/
theorem c2_witness :
    (∀ gen, sendMessage (GenEnv.apiKey ⟨[], none, none, [], fun _ _ _ => .error (str "x"), false, false⟩)
        none none [] gen = (.error (str "Missing VITE_GEMINI_API_KEY"), [], false)) ∧
    generateQuestions ⟨[], none, none, [], fun _ _ _ => .error (str "x"), false, false⟩
        ⟨str "P", str "D", 1, str "T"⟩ =
      ⟨buildFallbackQuestions ⟨str "P", str "D", 1, str "T"⟩,
       [fallbackWarning (str "Missing VITE_GEMINI_API_KEY")], [AI_TIMEOUT_MS]⟩ :=
  c2_missing_credential_caught
    ⟨[], none, none, [], fun _ _ _ => .error (str "x"), false, false⟩
    ⟨str "P", str "D", 1, str "T"⟩ rfl rfl

/-! ## Claim theorems: shape validation (C8) -/

/-- Destructuring of a successful per-element validation: the element is an
object with string `question`/`answer` fields of positive trimmed length, and
its `InterviewQuestion` view is exactly those two strings. -/
theorem isValidItem_destruct (it : Json) (h : isValidItem it = true) :
    ∃ fs q a, it = .obj fs ∧
      jsonLookup fs (str "question") = some (.str q) ∧
      jsonLookup fs (str "answer") = some (.str a) ∧
      0 < (trimJS q).length ∧ 0 < (trimJS a).length ∧
      toQuestion it = ⟨q, a⟩ := by
  cases it with
  | obj fs =>
    simp only [isValidItem, Bool.and_eq_true] at h
    obtain ⟨h1, h2⟩ := h
    cases hq : jsonLookup fs (str "question") with
    | none => rw [hq] at h1; simp at h1
    | some jq =>
      rw [hq] at h1
      cases jq with
      | str q =>
        cases ha : jsonLookup fs (str "answer") with
        | none => rw [ha] at h2; simp at h2
        | some ja =>
          rw [ha] at h2
          cases ja with
          | str a =>
            refine ⟨fs, q, a, rfl, hq, ha, by simpa using h1, by simpa using h2, ?_⟩
            simp [toQuestion, getStrField, hq, ha]
          | null => simp at h2
          | bool b => simp at h2
          | num t => simp at h2
          | arr l => simp at h2
          | obj fs2 => simp at h2
      | null => simp at h1
      | bool b => simp at h1
      | num t => simp at h1
      | arr l => simp at h1
      | obj fs2 => simp at h1
  | null => simp [isValidItem] at h
  | bool b => simp [isValidItem] at h
  | num t => simp [isValidItem] at h
  | str s => simp [isValidItem] at h
  | arr l => simp [isValidItem] at h

/-- Bridge: a value passing `isValidQuestions` yields only well-formed pairs. -/
theorem isValid_toQuestions (j : Json) (h : isValidQuestions j = true) :
    ∀ q ∈ toQuestions j, trimJS q.question ≠ [] ∧ trimJS q.answer ≠ [] := by
  cases j with
  | arr items =>
    intro q hq
    simp only [toQuestions, List.mem_map] at hq
    obtain ⟨it, hit, rfl⟩ := hq
    have hvalid : isValidItem it = true := by
      simp only [isValidQuestions, List.all_eq_true] at h
      exact h it hit
    obtain ⟨fs, qv, av, _, _, _, hql, hal, htq⟩ := isValidItem_destruct it hvalid
    rw [htq]
    exact ⟨List.length_pos.mp hql, List.length_pos.mp hal⟩
  | null => intro q hq; simp [toQuestions] at hq
  | bool b => intro q hq; simp [toQuestions] at hq
  | num t => intro q hq; simp [toQuestions] at hq
  | str s => intro q hq; simp [toQuestions] at hq
  | obj fs => intro q hq; simp [toQuestions] at hq

/-- C8: the validation step accepts exactly the values that are sequences of
objects with string `question`/`answer` fields of positive trimmed length.
Any violation yields the `UnexpectedShape` error, which is distinct from
every JSON-parse failure message; on success every element is preserved
one-for-one (no entry is coerced or dropped). -/
theorem c8_shape_validation (j : Json) :
    (isValidQuestions j = false → validateQuestions j = .error shapeErrorMsg) ∧
    (∀ items, j = .arr items → isValidQuestions j = true →
      validateQuestions j = .ok (items.map toQuestion) ∧
      (items.map toQuestion).length = items.length ∧
      ∀ it ∈ items, ∃ fs q a, it = .obj fs ∧
        jsonLookup fs (str "question") = some (.str q) ∧
        jsonLookup fs (str "answer") = some (.str a) ∧
        0 < (trimJS q).length ∧ 0 < (trimJS a).length ∧
        toQuestion it = ⟨q, a⟩) ∧
    (∀ d, shapeErrorMsg ≠ invalidJsonMsg ++ d) := by
  refine ⟨?_, ?_, ?_⟩
  · intro h
    simp [validateQuestions, h]
  · intro items hj hvalid
    subst hj
    refine ⟨by simp [validateQuestions, hvalid, toQuestions], by simp, ?_⟩
    intro it hit
    apply isValidItem_destruct
    simp only [isValidQuestions, List.all_eq_true] at hvalid
    exact hvalid it hit
  · intro d h
    simp [shapeErrorMsg, invalidJsonMsg, str] at h

/-- A timeout race that produced a value did not time out: the underlying
promise produced that value. -/
theorem withTimeout_ok {α : Type} (t : Bool) (m : List Char)
    (x : Except (List Char) α) (v : α) (h : withTimeout t m x = .ok v) : x = .ok v := by
  cases t with
  | false => simpa [withTimeout] using h
  | true => simp [withTimeout] at h

/-- A successful sanitizer run yields only well-formed pairs. -/
theorem parseSanitize_ok_wellformed (raw : List Char) (qs : List InterviewQuestion)
    (h : parseSanitize raw = .ok qs) :
    ∀ q ∈ qs, trimJS q.question ≠ [] ∧ trimJS q.answer ≠ [] := by
  unfold parseSanitize at h
  cases hc : cleanAiResponse raw with
  | error e => rw [hc] at h; simp at h
  | ok j =>
    rw [hc] at h
    unfold validateQuestions at h
    dsimp only at h
    by_cases hv : isValidQuestions j = true
    · rw [if_pos hv] at h
      simp only [Except.ok.injEq] at h
      subst h
      exact isValid_toQuestions j hv
    · rw [if_neg hv] at h
      simp at h

/-- A successful generation attempt yields only well-formed pairs. -/
theorem generateAiResponse_ok_wellformed (env : GenEnv) (r : Bool) (data : FormData)
    (qs : List InterviewQuestion) (h : generateAiResponse env r data = .ok qs) :
    ∀ q ∈ qs, trimJS q.question ≠ [] ∧ trimJS q.answer ≠ [] := by
  simp only [generateAiResponse] at h
  cases hsm : (sendMessage env.apiKey env.configuredModel env.cachedModelList env.available
      fun m => env.genCall r m (buildPrompt data)).1 with
  | error e => rw [hsm] at h; simp at h
  | ok raw =>
    rw [hsm] at h
    exact parseSanitize_ok_wellformed raw qs h

/-- C8 witness: the spec's rejection example `[{"question":"","answer":"A1"}]`
(written here as the parsed value, which `jsonParse` indeed produces from that
raw text): it fails validation with the `UnexpectedShape` message, and the
full sanitizer rejects the raw text the same way. -/
theorem c8_witness :
    jsonParse (str "[\x7b\"question\":\"\",\"answer\":\"A1\"\x7d]") =
      some (.arr [.obj [(str "question", .str []), (str "answer", .str (str "A1"))]]) ∧
    isValidQuestions (.arr [.obj [(str "question", .str []), (str "answer", .str (str "A1"))]]) = false ∧
    validateQuestions (.arr [.obj [(str "question", .str []), (str "answer", .str (str "A1"))]]) =
      .error shapeErrorMsg ∧
    parseSanitize (str "[\x7b\"question\":\"\",\"answer\":\"A1\"\x7d]") = .error shapeErrorMsg :=
  ⟨rfl, rfl,
   (c8_shape_validation (.arr [.obj [(str "question", .str []), (str "answer", .str (str "A1"))]])).1 rfl,
   rfl⟩

/-! ## Claim theorems: GenerationOrchestrator (C1, C4) -/

/-- C1: for every environment (hence every `JobSpec`, including a present
credential with an empty model catalog) the orchestrator returns a result —
it is a total function whose every error path ends in the fallback — with a
usable question set (every pair has non-empty trimmed question and answer),
and it emits at most one user-visible warning, and only when it returned the
deterministic fallback. -/
theorem c1_generateQuestions_never_fails (env : GenEnv) (data : FormData) :
    (generateQuestions env data).warnings.length ≤ 1 ∧
    ((generateQuestions env data).warnings ≠ [] →
      (generateQuestions env data).questions = buildFallbackQuestions data) ∧
    ∀ q ∈ (generateQuestions env data).questions,
      trimJS q.question ≠ [] ∧ trimJS q.answer ≠ [] := by
  cases hp : withTimeout env.primaryTimedOut (str "AI generation timed out")
      (generateAiResponse env false data) with
  | ok qs =>
    have hw := generateAiResponse_ok_wellformed env false data qs (withTimeout_ok _ _ _ _ hp)
    have hgq : generateQuestions env data = ⟨qs, [], [AI_TIMEOUT_MS]⟩ := by
      simp only [generateQuestions, hp]
    rw [hgq]
    exact ⟨by simp, by simp, hw⟩
  | error e =>
    by_cases hm : containsSub timeoutMarker (lowerJS e) = true
    · cases hr : withTimeout env.retryTimedOut (str "AI generation timed out after retry")
          (generateAiResponse env true data) with
      | ok qs =>
        have hw := generateAiResponse_ok_wellformed env true data qs (withTimeout_ok _ _ _ _ hr)
        have hgq : generateQuestions env data = ⟨qs, [], [AI_TIMEOUT_MS, AI_RETRY_TIMEOUT_MS]⟩ := by
          simp only [generateQuestions, hp, hm, if_true, hr]
        rw [hgq]
        exact ⟨by simp, by simp, hw⟩
      | error e2 =>
        have hgq : generateQuestions env data =
            ⟨buildFallbackQuestions data, [fallbackWarning e2],
             [AI_TIMEOUT_MS, AI_RETRY_TIMEOUT_MS]⟩ := by
          simp only [generateQuestions, hp, hm, if_true, hr]
        rw [hgq]
        exact ⟨by simp, fun _ => rfl, (fallbackQuestions_facts data).2⟩
    · have hm' : containsSub timeoutMarker (lowerJS e) = false := by
        simpa using hm
      have hgq : generateQuestions env data =
          ⟨buildFallbackQuestions data, [fallbackWarning e], [AI_TIMEOUT_MS]⟩ := by
        simp only [generateQuestions, hp, hm', Bool.false_eq_true, if_false]
      rw [hgq]
      exact ⟨by simp, fun _ => rfl, (fallbackQuestions_facts data).2⟩

/-- C1 witness: the invariants at a concrete environment whose attempts all
time out. -/
theorem c1_witness :
    (generateQuestions ⟨str "k", none, none, [], fun _ _ _ => .error (str "boom"), true, true⟩
        ⟨str "P", str "D", 3, str "T"⟩).warnings.length ≤ 1 ∧
    ((generateQuestions ⟨str "k", none, none, [], fun _ _ _ => .error (str "boom"), true, true⟩
        ⟨str "P", str "D", 3, str "T"⟩).warnings ≠ [] →
      (generateQuestions ⟨str "k", none, none, [], fun _ _ _ => .error (str "boom"), true, true⟩
        ⟨str "P", str "D", 3, str "T"⟩).questions =
        buildFallbackQuestions ⟨str "P", str "D", 3, str "T"⟩) ∧
    ∀ q ∈ (generateQuestions ⟨str "k", none, none, [], fun _ _ _ => .error (str "boom"), true, true⟩
        ⟨str "P", str "D", 3, str "T"⟩).questions,
      trimJS q.question ≠ [] ∧ trimJS q.answer ≠ [] :=
  c1_generateQuestions_never_fails
    ⟨str "k", none, none, [], fun _ _ _ => .error (str "boom"), true, true⟩
    ⟨str "P", str "D", 3, str "T"⟩

/-- C4: the retry control flow within one orchestrated call.  A primary
success is returned as-is after one 60s-bounded attempt.  A primary failure
whose message carries the timeout marker triggers exactly one retry with the
longer 90s bound: a retry success yields the real question set, a retry
failure (for any reason) yields the fallback.  A primary failure without the
marker goes directly to the fallback with no retry (one attempt only). -/
theorem c4_timeout_retry_flow (env : GenEnv) (data : FormData) :
    (∀ qs, withTimeout env.primaryTimedOut (str "AI generation timed out")
        (generateAiResponse env false data) = .ok qs →
      generateQuestions env data = ⟨qs, [], [AI_TIMEOUT_MS]⟩) ∧
    (∀ e, withTimeout env.primaryTimedOut (str "AI generation timed out")
        (generateAiResponse env false data) = .error e →
      (containsSub timeoutMarker (lowerJS e) = true →
        (generateQuestions env data).attempts = [AI_TIMEOUT_MS, AI_RETRY_TIMEOUT_MS] ∧
        (∀ qs, withTimeout env.retryTimedOut (str "AI generation timed out after retry")
            (generateAiResponse env true data) = .ok qs →
          generateQuestions env data = ⟨qs, [], [AI_TIMEOUT_MS, AI_RETRY_TIMEOUT_MS]⟩) ∧
        (∀ e2, withTimeout env.retryTimedOut (str "AI generation timed out after retry")
            (generateAiResponse env true data) = .error e2 →
          generateQuestions env data =
            ⟨buildFallbackQuestions data, [fallbackWarning e2],
             [AI_TIMEOUT_MS, AI_RETRY_TIMEOUT_MS]⟩)) ∧
      (containsSub timeoutMarker (lowerJS e) = false →
        generateQuestions env data =
          ⟨buildFallbackQuestions data, [fallbackWarning e], [AI_TIMEOUT_MS]⟩)) := by
  constructor
  · intro qs h
    simp only [generateQuestions, h]
  · intro e he
    constructor
    · intro hm
      refine ⟨?_, ?_, ?_⟩
      · cases hr : withTimeout env.retryTimedOut (str "AI generation timed out after retry")
            (generateAiResponse env true data) with
        | ok qs => simp only [generateQuestions, he, hm, if_true, hr]
        | error e2 => simp only [generateQuestions, he, hm, if_true, hr]
      · intro qs hr
        simp only [generateQuestions, he, hm, if_true, hr]
      · intro e2 hr
        simp only [generateQuestions, he, hm, if_true, hr]
    · intro hm
      simp only [generateQuestions, he, hm, Bool.false_eq_true, if_false]

/-- C4 witness: with both timers winning their races, the primary failure is
the timeout message, one 90s retry is made, its timeout sends control to the
fallback. -/
theorem c4_witness :
    generateQuestions ⟨str "k", none, none, [], fun _ _ _ => .ok (str "x"), true, true⟩
        ⟨str "P", str "D", 3, str "T"⟩ =
      ⟨buildFallbackQuestions ⟨str "P", str "D", 3, str "T"⟩,
       [fallbackWarning (str "AI generation timed out after retry")],
       [AI_TIMEOUT_MS, AI_RETRY_TIMEOUT_MS]⟩ :=
  (((c4_timeout_retry_flow
      ⟨str "k", none, none, [], fun _ _ _ => .ok (str "x"), true, true⟩
      ⟨str "P", str "D", 3, str "T"⟩).2
    (str "AI generation timed out") rfl).1 (by decide)).2.2
    (str "AI generation timed out after retry") rfl

/-! ## C5 machinery: character classes -/

theorem char_eq_of_toNat {c d : Char} (h : c.toNat = d.toNat) : c = d := by
  have h1 := Char.ofNat_toNat c
  have h2 := Char.ofNat_toNat d
  rw [h, h2] at h1
  exact h1.symm

theorem numChar_spec (c : Char) (h : numChar c = true) :
    c ≠ quoteChar ∧ c ≠ backslashChar ∧ c ≠ '[' ∧ c ≠ ']' ∧
    jsonWs c = false ∧ ctrlToSpace c = c ∧ c ≠ rbrace ∧ c ≠ ',' ∧
    c ≠ lbrace ∧ c ≠ 'n' ∧ c ≠ 't' ∧ c ≠ 'f' := by
  simp only [numChar, isDig, Bool.or_eq_true, Bool.and_eq_true, decide_eq_true_eq,
    or_assoc] at h
  rcases h with ⟨h1, h2⟩ | rfl | rfl | rfl | rfl | rfl
  · refine ⟨?_, ?_, ?_, ?_, ?_, ?_, ?_, ?_, ?_, ?_, ?_, ?_⟩
    · intro he; subst he; revert h1 h2; decide
    · intro he; subst he; revert h1 h2; decide
    · intro he; subst he; revert h1 h2; decide
    · intro he; subst he; revert h1 h2; decide
    · simp only [jsonWs, Bool.or_eq_false_iff, decide_eq_false_iff_not]
      omega
    · rw [ctrlToSpace, if_neg (by omega)]
    · intro he; subst he; revert h1 h2; decide
    · intro he; subst he; revert h1 h2; decide
    · intro he; subst he; revert h1 h2; decide
    · intro he; subst he; revert h1 h2; decide
    · intro he; subst he; revert h1 h2; decide
    · intro he; subst he; revert h1 h2; decide
  all_goals decide

theorem jsonWs_spec (c : Char) (h : jsonWs c = true) :
    numChar c = false ∧ c ≠ quoteChar ∧ c ≠ backslashChar ∧ c ≠ '[' ∧ c ≠ ']' ∧
    jsWs c = true ∧ jsonWs (ctrlToSpace c) = true ∧ ctrlToSpace c ≠ quoteChar ∧
    ctrlToSpace c ≠ '[' ∧ ctrlToSpace c ≠ ']' := by
  simp only [jsonWs, Bool.or_eq_true, decide_eq_true_eq, or_assoc] at h
  have hc : c = ' ' ∨ c = Char.ofNat 9 ∨ c = Char.ofNat 10 ∨ c = Char.ofNat 13 := by
    rcases h with h | h | h | h
    · exact Or.inl (char_eq_of_toNat (by rw [h]; decide))
    · exact Or.inr (Or.inl (char_eq_of_toNat (by rw [h]; decide)))
    · exact Or.inr (Or.inr (Or.inl (char_eq_of_toNat (by rw [h]; decide))))
    · exact Or.inr (Or.inr (Or.inr (char_eq_of_toNat (by rw [h]; decide))))
  rcases hc with rfl | rfl | rfl | rfl <;> decide

/-! ## C5 machinery: list helpers -/

theorem startsWith_decomp :
    ∀ (p s : List Char), listStartsWith p s = true → s = p ++ s.drop p.length := by
  intro p
  induction p with
  | nil => intro s _; simp
  | cons x xs ih =>
    intro s h
    cases s with
    | nil => simp [listStartsWith] at h
    | cons c cs =>
      simp only [listStartsWith, Bool.and_eq_true, decide_eq_true_eq] at h
      obtain ⟨rfl, h2⟩ := h
      simpa using ih cs h2

theorem listStartsWith_same : ∀ (p t : List Char), listStartsWith p (p ++ t) = true := by
  intro p
  induction p with
  | nil => intro t; rfl
  | cons x xs ih => intro t; simpa [listStartsWith] using ih t

theorem dropWhile_append_all (p : Char → Bool) :
    ∀ (w t : List Char), (∀ x ∈ w, p x = true) →
    (∀ c, t.head? = some c → p c = false) →
    (w ++ t).dropWhile p = t := by
  intro w
  induction w with
  | nil =>
    intro t _ ht
    cases t with
    | nil => rfl
    | cons c cs =>
      have := ht c rfl
      simp [List.dropWhile, this]
  | cons x xs ih =>
    intro t hw ht
    have hx : p x = true := hw x (List.mem_cons_self _ _)
    simp only [List.cons_append, List.dropWhile, hx]
    exact ih t (fun y hy => hw y (List.mem_cons_of_mem _ hy)) ht

theorem takeWhile_append_all (p : Char → Bool) :
    ∀ (w t : List Char), (∀ x ∈ w, p x = true) →
    (∀ c, t.head? = some c → p c = false) →
    (w ++ t).takeWhile p = w := by
  intro w
  induction w with
  | nil =>
    intro t _ ht
    cases t with
    | nil => rfl
    | cons c cs =>
      have := ht c rfl
      simp [List.takeWhile, this]
  | cons x xs ih =>
    intro t hw ht
    have hx : p x = true := hw x (List.mem_cons_self _ _)
    simp only [List.cons_append, List.takeWhile, hx]
    exact congrArg _ (ih t (fun y hy => hw y (List.mem_cons_of_mem _ hy)) ht)

theorem map_id_of_mem {f : Char → Char} :
    ∀ (l : List Char), (∀ x ∈ l, f x = x) → l.map f = l := by
  intro l
  induction l with
  | nil => intro _; rfl
  | cons x xs ih =>
    intro h
    rw [List.map_cons, h x (List.mem_cons_self _ _),
      ih (fun y hy => h y (List.mem_cons_of_mem _ hy))]

/-! ## C5 machinery: scanner lemmas -/

theorem goScan_append :
    ∀ (xs ys : List Char) (i : Nat) (st : ScanSt),
    goScan (xs ++ ys) i st =
      (match goScan xs i st with
       | .error e => .error e
       | .ok st2 => goScan ys (i + xs.length) st2) := by
  intro xs
  induction xs with
  | nil => intro ys i st; simp [goScan]
  | cons c cs ih =>
    intro ys i st
    cases h : scanStep c i st with
    | error e => simp [goScan, h]
    | ok st2 =>
      simp only [List.cons_append, goScan, h, List.append_eq]
      rw [ih ys (i + 1) st2, List.length_cons]
      have heq : i + 1 + cs.length = i + (cs.length + 1) := by omega
      rw [heq]

theorem scanStep_neutral (c : Char) (i : Nat) (st : ScanSt)
    (hs : st.inString = false) (h1 : c ≠ quoteChar) (h2 : c ≠ '[') (h3 : c ≠ ']') :
    scanStep c i st = .ok st := by
  simp [scanStep, hs, h1, h2, h3]

theorem goScan_neutral :
    ∀ (C : List Char), (∀ x ∈ C, x ≠ quoteChar ∧ x ≠ '[' ∧ x ≠ ']') →
    ∀ (i : Nat) (st : ScanSt), st.inString = false → goScan C i st = .ok st := by
  intro C
  induction C with
  | nil => intro _ i st _; rfl
  | cons c cs ih =>
    intro h i st hs
    obtain ⟨h1, h2, h3⟩ := h c (List.mem_cons_self _ _)
    simp only [goScan, scanStep_neutral c i st hs h1 h2 h3]
    exact ih (fun y hy => h y (List.mem_cons_of_mem _ hy)) (i + 1) st hs

theorem scanStep_quote_in (i : Nat) (st : ScanSt) (hs : st.inString = true)
    (he : st.isEscaped = false) :
    scanStep quoteChar i st = .ok { st with inString := false } := by
  simp [scanStep, hs, he, show quoteChar ≠ backslashChar from by decide]

theorem scanStep_quote_out (i : Nat) (st : ScanSt) (hs : st.inString = false) :
    scanStep quoteChar i st = .ok { st with inString := true } := by
  simp [scanStep, hs]

theorem scanStep_backslash_in (i : Nat) (st : ScanSt) (hs : st.inString = true)
    (he : st.isEscaped = false) :
    scanStep backslashChar i st = .ok { st with isEscaped := true } := by
  simp [scanStep, hs, he]

theorem scanStep_escaped (c : Char) (i : Nat) (st : ScanSt) (hs : st.inString = true)
    (he : st.isEscaped = true) :
    scanStep c i st = .ok { st with isEscaped := false } := by
  simp [scanStep, hs, he]

theorem scanStep_other_in (c : Char) (i : Nat) (st : ScanSt) (hs : st.inString = true)
    (he : st.isEscaped = false) (h1 : c ≠ backslashChar) (h2 : c ≠ quoteChar) :
    scanStep c i st = .ok st := by
  simp [scanStep, hs, he, h1, h2]

theorem scanStep_open (i : Nat) (st : ScanSt) (hs : st.inString = false) :
    scanStep '[' i st =
      .ok { st with start := if st.depth = 0 then some i else st.start,
                    depth := st.depth + 1 } := by
  simp [scanStep, hs, show ('[' : Char) ≠ quoteChar from by decide]

theorem scanStep_close_deep (i : Nat) (st : ScanSt) (hs : st.inString = false)
    (hd : 2 ≤ st.depth) :
    scanStep ']' i st = .ok { st with depth := st.depth - 1 } := by
  have h1 : st.depth > 0 := by omega
  have h2 : st.depth ≠ 1 := by omega
  simp [scanStep, hs, h1, h2, show (']' : Char) ≠ quoteChar from by decide,
    show (']' : Char) ≠ '[' from by decide]

theorem scanStep_close_one (i : Nat) (st : ScanSt) (s0 : Nat) (hs : st.inString = false)
    (hd : st.depth = 1) (hst : st.start = some s0) :
    scanStep ']' i st = .error (s0, i) := by
  simp [scanStep, hs, hd, hst, show (']' : Char) ≠ quoteChar from by decide,
    show (']' : Char) ≠ '[' from by decide]

theorem hexVal_facts (x : Char) (a : Nat) (h : hexVal x = some a) :
    32 ≤ x.toNat ∧ x ≠ quoteChar ∧ x ≠ backslashChar := by
  have hr : (48 ≤ x.toNat ∧ x.toNat ≤ 57) ∨ (97 ≤ x.toNat ∧ x.toNat ≤ 102) ∨
      (65 ≤ x.toNat ∧ x.toNat ≤ 70) := by
    unfold hexVal at h
    split at h
    · exact Or.inl (by assumption)
    · split at h
      · exact Or.inr (Or.inl (by assumption))
      · split at h
        · exact Or.inr (Or.inr (by assumption))
        · exact Option.noConfusion h
  refine ⟨by omega, ?_, ?_⟩ <;> (intro he; subst he; revert hr; decide)

theorem escChar_facts (e : Char) (ec : Char) (h : escChar e = some ec) :
    32 ≤ e.toNat ∧ e ≠ 'u' := by
  have hmem : e = quoteChar ∨ e = backslashChar ∨ e = '/' ∨ e = 'b' ∨ e = 'f' ∨
      e = 'n' ∨ e = 'r' ∨ e = 't' := by
    by_contra hc
    push_neg at hc
    obtain ⟨n1, n2, n3, n4, n5, n6, n7, n8⟩ := hc
    rw [escChar, if_neg n1, if_neg n2, if_neg n3, if_neg n4, if_neg n5, if_neg n6,
      if_neg n7, if_neg n8] at h
    exact Option.noConfusion h
  rcases hmem with rfl | rfl | rfl | rfl | rfl | rfl | rfl | rfl <;>
    exact ⟨by decide, by decide⟩

/-- Definitional unfolding of one scanner-loop iteration. -/
theorem goScan_cons (c : Char) (cs : List Char) (i : Nat) (st : ScanSt) :
    goScan (c :: cs) i st =
      (match scanStep c i st with
       | .error e => .error e
       | .ok st2 => goScan cs (i + 1) st2) := rfl

/-- Definitional unfolding of one string-body step. -/
theorem parseStringBody_cons (f : Nat) (c : Char) (rest : List Char) :
    parseStringBody (f + 1) (c :: rest) =
      (if c = quoteChar then some ([], rest)
       else if c = backslashChar then
         match rest with
         | [] => none
         | e :: r2 =>
           if e = 'u' then
             match r2 with
             | h1 :: h2 :: h3 :: h4 :: r3 =>
               match hexVal h1, hexVal h2, hexVal h3, hexVal h4 with
               | some a, some b, some c2, some d =>
                 match parseStringBody f r3 with
                 | some (cs, rr) =>
                   some (Char.ofNat (((a * 16 + b) * 16 + c2) * 16 + d) :: cs, rr)
                 | none => none
               | _, _, _, _ => none
             | _ => none
           else
             match escChar e with
             | some ec =>
               match parseStringBody f r2 with
               | some (cs, rr) => some (ec :: cs, rr)
               | none => none
             | none => none
       else if c.toNat < 32 then none
       else
         match parseStringBody f rest with
         | some (cs, rr) => some (c :: cs, rr)
         | none => none) := rfl

/-- The decomposition lemma for string bodies: a successful run splits the
input as consumed-plus-rest, where the consumed text re-parses against any
rest at any fuel of at least its length, contains no control characters, and
scanning it from an in-string state exits the string with the rest of the
state untouched. -/
theorem parseStringBody_decomp :
    ∀ (f : Nat) (s content r : List Char), parseStringBody f s = some (content, r) →
    ∃ C, s = C ++ r ∧
      (∀ f2 r2, C.length ≤ f2 → parseStringBody f2 (C ++ r2) = some (content, r2)) ∧
      (∀ x ∈ C, 32 ≤ x.toNat) ∧
      (∀ (i d : Nat) (s0 : Option Nat),
        goScan C i ⟨s0, d, true, false⟩ = .ok ⟨s0, d, false, false⟩) := by
  intro f
  induction f with
  | zero => intro s content r h; simp [parseStringBody] at h
  | succ f ih =>
    intro s content r h
    cases s with
    | nil => simp [parseStringBody] at h
    | cons c rest =>
      rw [parseStringBody_cons] at h
      by_cases hq : c = quoteChar
      · rw [if_pos hq] at h
        simp only [Option.some_inj, Prod.mk.injEq] at h
        obtain ⟨rfl, rfl⟩ := h
        subst hq
        refine ⟨[quoteChar], rfl, ?_, ?_, ?_⟩
        · intro f2 r2 hf2
          cases f2 with
          | zero => simp at hf2
          | succ g => rfl
        · intro x hx
          simp only [List.mem_singleton] at hx
          subst hx; decide
        · intro i d s0
          rfl
      · rw [if_neg hq] at h
        by_cases hbs : c = backslashChar
        · rw [if_pos hbs] at h
          cases rest with
          | nil => simp at h
          | cons e r2 =>
            dsimp only at h
            by_cases hu : e = 'u'
            · rw [if_pos hu] at h
              cases r2 with
              | nil => simp at h
              | cons h1 r3 =>
              cases r3 with
              | nil => simp at h
              | cons h2 r4 =>
              cases r4 with
              | nil => simp at h
              | cons h3 r5 =>
              cases r5 with
              | nil => simp at h
              | cons h4 r6 =>
              dsimp only at h
              cases hv1 : hexVal h1 with
              | none => rw [hv1] at h; simp at h
              | some a =>
              cases hv2 : hexVal h2 with
              | none => rw [hv1, hv2] at h; simp at h
              | some b =>
              cases hv3 : hexVal h3 with
              | none => rw [hv1, hv2, hv3] at h; simp at h
              | some c2 =>
              cases hv4 : hexVal h4 with
              | none => rw [hv1, hv2, hv3, hv4] at h; simp at h
              | some d4 =>
              rw [hv1, hv2, hv3, hv4] at h
              cases hrec : parseStringBody f r6 with
              | none => rw [hrec] at h; simp at h
              | some pr =>
                obtain ⟨cs, rr⟩ := pr
                rw [hrec] at h
                simp only [Option.some_inj, Prod.mk.injEq] at h
                obtain ⟨rfl, rfl⟩ := h
                obtain ⟨C3, hsplit, stab3, ge3, scan3⟩ := ih _ _ _ hrec
                subst hbs hu
                refine ⟨backslashChar :: 'u' :: h1 :: h2 :: h3 :: h4 :: C3,
                  by simp [hsplit], ?_, ?_, ?_⟩
                · intro f2 rx hf2
                  obtain ⟨g, rfl⟩ : ∃ g, f2 = g + 1 := ⟨f2 - 1, by simp at hf2; omega⟩
                  · simp only [List.cons_append]
                    rw [parseStringBody_cons,
                      if_neg (show backslashChar ≠ quoteChar from by decide), if_pos rfl]
                    dsimp only
                    rw [if_pos rfl, hv1, hv2, hv3, hv4,
                      stab3 g rx (by simp at hf2 ⊢; omega)]
                · intro x hx
                  simp only [List.mem_cons] at hx
                  rcases hx with rfl | rfl | rfl | rfl | rfl | rfl | hx
                  · decide
                  · decide
                  · exact (hexVal_facts _ _ hv1).1
                  · exact (hexVal_facts _ _ hv2).1
                  · exact (hexVal_facts _ _ hv3).1
                  · exact (hexVal_facts _ _ hv4).1
                  · exact ge3 x hx
                · intro i d s0
                  rw [goScan_cons,
                    scanStep_backslash_in i ⟨s0, d, true, false⟩ rfl rfl]
                  dsimp only
                  rw [goScan_cons, scanStep_escaped 'u' (i + 1) ⟨s0, d, true, true⟩ rfl rfl]
                  dsimp only
                  rw [goScan_cons, scanStep_other_in h1 (i + 1 + 1) ⟨s0, d, true, false⟩
                    rfl rfl (hexVal_facts _ _ hv1).2.2 (hexVal_facts _ _ hv1).2.1]
                  dsimp only
                  rw [goScan_cons, scanStep_other_in h2 (i + 1 + 1 + 1) ⟨s0, d, true, false⟩
                    rfl rfl (hexVal_facts _ _ hv2).2.2 (hexVal_facts _ _ hv2).2.1]
                  dsimp only
                  rw [goScan_cons, scanStep_other_in h3 (i + 1 + 1 + 1 + 1) ⟨s0, d, true, false⟩
                    rfl rfl (hexVal_facts _ _ hv3).2.2 (hexVal_facts _ _ hv3).2.1]
                  dsimp only
                  rw [goScan_cons, scanStep_other_in h4 (i + 1 + 1 + 1 + 1 + 1) ⟨s0, d, true, false⟩
                    rfl rfl (hexVal_facts _ _ hv4).2.2 (hexVal_facts _ _ hv4).2.1]
                  dsimp only
                  exact scan3 (i + 1 + 1 + 1 + 1 + 1 + 1) d s0
            · rw [if_neg hu] at h
              cases hec : escChar e with
              | none => rw [hec] at h; simp at h
              | some ec =>
                rw [hec] at h
                cases hrec : parseStringBody f r2 with
                | none => rw [hrec] at h; simp at h
                | some pr =>
                  obtain ⟨cs, rr⟩ := pr
                  rw [hrec] at h
                  simp only [Option.some_inj, Prod.mk.injEq] at h
                  obtain ⟨rfl, rfl⟩ := h
                  obtain ⟨C2, hsplit, stab2, ge2, scan2⟩ := ih _ _ _ hrec
                  subst hbs
                  refine ⟨backslashChar :: e :: C2, by simp [hsplit], ?_, ?_, ?_⟩
                  · intro f2 rx hf2
                    obtain ⟨g, rfl⟩ : ∃ g, f2 = g + 1 := ⟨f2 - 1, by simp at hf2; omega⟩
                    · simp only [List.cons_append]
                      rw [parseStringBody_cons,
                        if_neg (show backslashChar ≠ quoteChar from by decide), if_pos rfl]
                      dsimp only
                      rw [if_neg hu, hec, stab2 g rx (by simp at hf2 ⊢; omega)]
                  · intro x hx
                    simp only [List.mem_cons] at hx
                    rcases hx with rfl | rfl | hx
                    · decide
                    · exact (escChar_facts _ _ hec).1
                    · exact ge2 x hx
                  · intro i d s0
                    rw [goScan_cons,
                      scanStep_backslash_in i ⟨s0, d, true, false⟩ rfl rfl]
                    dsimp only
                    rw [goScan_cons, scanStep_escaped e (i + 1) ⟨s0, d, true, true⟩ rfl rfl]
                    dsimp only
                    exact scan2 (i + 1 + 1) d s0
        · rw [if_neg hbs] at h
          by_cases hctrl : c.toNat < 32
          · rw [if_pos hctrl] at h; simp at h
          · rw [if_neg hctrl] at h
            cases hrec : parseStringBody f rest with
            | none => rw [hrec] at h; simp at h
            | some pr =>
              obtain ⟨cs, rr⟩ := pr
              rw [hrec] at h
              simp only [Option.some_inj, Prod.mk.injEq] at h
              obtain ⟨rfl, rfl⟩ := h
              obtain ⟨Cr, hsplit, stabr, ger, scanr⟩ := ih _ _ _ hrec
              refine ⟨c :: Cr, by simp [hsplit], ?_, ?_, ?_⟩
              · intro f2 rx hf2
                obtain ⟨g, rfl⟩ : ∃ g, f2 = g + 1 := ⟨f2 - 1, by simp at hf2; omega⟩
                · simp only [List.cons_append]
                  rw [parseStringBody_cons, if_neg hq, if_neg hbs, if_neg hctrl,
                    stabr g rx (by simp at hf2 ⊢; omega)]
              · intro x hx
                simp only [List.mem_cons] at hx
                rcases hx with rfl | hx
                · omega
                · exact ger x hx
              · intro i d s0
                rw [goScan_cons, scanStep_other_in c i ⟨s0, d, true, false⟩ rfl rfl hbs hq]
                dsimp only
                exact scanr (i + 1) d s0

/-! ## C5 machinery: parser unfolding lemmas and small adapters -/

/-- `parseValue` fails on empty input at every fuel. -/
theorem parseValue_nil (f : Nat) : parseValue f [] = none := by
  cases f <;> rfl

/-- Definitional unfolding of one `parseValue` step on nonempty input. -/
theorem parseValue_cons (f : Nat) (c : Char) (rest : List Char) :
    parseValue (f + 1) (c :: rest) =
      (if c = quoteChar then
        match parseStringBody (rest.length + 1) rest with
        | some (content, r) => some (.str content, r)
        | none => none
      else if c = '[' then
        match skipWs rest with
        | [] => none
        | c2 :: t2 =>
          if c2 = ']' then some (.arr [], t2)
          else
            match parseElems f (c2 :: t2) with
            | some (l, r1) =>
              match r1 with
              | [] => none
              | c3 :: r2 => if c3 = ']' then some (.arr l, r2) else none
            | none => none
      else if c = lbrace then
        match skipWs rest with
        | [] => none
        | c2 :: t2 =>
          if c2 = rbrace then some (.obj [], t2)
          else
            match parseMembers f (c2 :: t2) with
            | some (l, r1) =>
              match r1 with
              | [] => none
              | c3 :: r2 => if c3 = rbrace then some (.obj l, r2) else none
            | none => none
      else if c = 'n' then parseLit (str "null") .null (c :: rest)
      else if c = 't' then parseLit (str "true") (.bool true) (c :: rest)
      else if c = 'f' then parseLit (str "false") (.bool false) (c :: rest)
      else if c = '-' ∨ isDig c = true then parseNumber (c :: rest)
      else none) := rfl

/-- Definitional unfolding of one `parseElems` step. -/
theorem parseElems_succ (f : Nat) (s : List Char) :
    parseElems (f + 1) s =
      (match parseValue f s with
       | some (v, r) =>
         match skipWs r with
         | [] => some ([v], [])
         | c2 :: t2 =>
           if c2 = ',' then
             match parseElems f (skipWs t2) with
             | some (l, rr) => some (v :: l, rr)
             | none => none
           else some ([v], c2 :: t2)
       | none => none) := rfl

/-- Definitional unfolding of one `parseMembers` step on nonempty input. -/
theorem parseMembers_succ (f : Nat) (c : Char) (r : List Char) :
    parseMembers (f + 1) (c :: r) =
      (if c = quoteChar then
        match parseStringBody (r.length + 1) r with
        | some (key, r1) =>
          match skipWs r1 with
          | [] => none
          | c2 :: r2 =>
            if c2 = ':' then
              match parseValue f (skipWs r2) with
              | some (v, r3) =>
                match skipWs r3 with
                | [] => some ([(key, v)], [])
                | c3 :: r4 =>
                  if c3 = ',' then
                    match parseMembers f (skipWs r4) with
                    | some (l, rr) => some ((key, v) :: l, rr)
                    | none => none
                  else some ([(key, v)], c3 :: r4)
              | none => none
            else none
        | none => none
      else none) := rfl

/-- `parseElems` fails on empty input at every fuel. -/
theorem parseElems_nil (f : Nat) : parseElems f [] = none := by
  cases f with
  | zero => rfl
  | succ g => rw [parseElems_succ, parseValue_nil]

/-- `parseMembers` fails on empty input at every fuel. -/
theorem parseMembers_nil (f : Nat) : parseMembers f [] = none := by
  cases f <;> rfl

/-- The head of a `dropWhile` result fails the predicate. -/
theorem dropWhile_head_false (p : Char → Bool) :
    ∀ (l : List Char) (c : Char) (t : List Char),
    l.dropWhile p = c :: t → p c = false := by
  intro l
  induction l with
  | nil => intro c t h; exact List.noConfusion h
  | cons x xs ih =>
    intro c t h
    cases hx : p x with
    | true =>
      rw [List.dropWhile_cons, if_pos hx] at h
      exact ih c t h
    | false =>
      rw [List.dropWhile_cons, if_neg (by simp [hx])] at h
      cases h
      exact hx

/-- Adapter: a `stopV` rest has a non-number head. -/
theorem stopV_head {r : List Char} (h : stopV r) :
    ∀ c, r.head? = some c → numChar c = false := by
  intro c hc
  cases r with
  | nil => exact Option.noConfusion hc
  | cons x t =>
    cases hc
    exact h

/-- Adapter: a `stopE` rest has a non-whitespace head. -/
theorem stopE_head {r : List Char} (h : stopE r) :
    ∀ c, r.head? = some c → jsonWs c = false := by
  intro c hc
  cases r with
  | nil => exact Option.noConfusion hc
  | cons x t =>
    cases hc
    exact h.2.1

/-- A `stopE` rest is in particular a `stopV` rest. -/
theorem stopE_stopV {r : List Char} (h : stopE r) : stopV r := by
  cases r with
  | nil => trivial
  | cons x t => exact h.1

/-- Whitespace characters are neutral to the bracket scanner. -/
theorem ws_neutral {w : List Char} (h : ∀ x ∈ w, jsonWs x = true) :
    ∀ x ∈ w, x ≠ quoteChar ∧ x ≠ '[' ∧ x ≠ ']' := by
  intro x hx
  obtain ⟨_, h2, _, h4, h5, _⟩ := jsonWs_spec x (h x hx)
  exact ⟨h2, h4, h5⟩

/-- The control-character repair sends whitespace to whitespace. -/
theorem ws_map_ctrl {w : List Char} (h : ∀ x ∈ w, jsonWs x = true) :
    ∀ x ∈ w.map ctrlToSpace, jsonWs x = true := by
  intro x hx
  rw [List.mem_map] at hx
  obtain ⟨y, hy, rfl⟩ := hx
  exact (jsonWs_spec y (h y hy)).2.2.2.2.2.2.1

/-- Every character of a whitespace prefix is whitespace. -/
theorem takeWhile_mem_ws {s : List Char} :
    ∀ x ∈ s.takeWhile jsonWs, jsonWs x = true :=
  fun _ hx => List.mem_takeWhile_imp hx

/-- Split a list at its whitespace prefix, in terms of `skipWs`. -/
theorem skipWs_split (s : List Char) :
    s = s.takeWhile jsonWs ++ skipWs s := by
  rw [skipWs]
  exact (List.takeWhile_append_dropWhile jsonWs s).symm

/-- Skipping whitespace past a repaired whitespace prefix. -/
theorem skipWs_mapped (w t : List Char) (hw : ∀ x ∈ w, jsonWs x = true)
    (ht : ∀ c, t.head? = some c → jsonWs c = false) :
    skipWs (w.map ctrlToSpace ++ t) = t := by
  rw [skipWs]
  exact dropWhile_append_all jsonWs _ t (ws_map_ctrl hw) ht

/-- Skipping whitespace consumes a repaired all-whitespace list entirely. -/
theorem skipWs_all_ws (w : List Char) (hw : ∀ x ∈ w, jsonWs x = true) :
    skipWs (w.map ctrlToSpace) = [] := by
  have h := skipWs_mapped w [] hw (fun c hc => Option.noConfusion hc)
  simpa using h

/-- Scanner invisibility composes over concatenation. -/
theorem scanOk_append {A B : List Char} (hA : scanOk A) (hB : scanOk B) :
    scanOk (A ++ B) := by
  intro i d s0 hd
  rw [goScan_append, hA i d s0 hd]
  exact hB (i + A.length) d s0 hd

/-- Neutral text is invisible to the scanner. -/
theorem scanOk_of_neutral {A : List Char}
    (h : ∀ x ∈ A, x ≠ quoteChar ∧ x ≠ '[' ∧ x ≠ ']') : scanOk A := by
  intro i d s0 _
  exact goScan_neutral A h i ⟨s0, d, false, false⟩ rfl

/-- Whitespace is invisible to the scanner. -/
theorem scanOk_ws {w : List Char} (hw : ∀ x ∈ w, jsonWs x = true) : scanOk w :=
  scanOk_of_neutral (ws_neutral hw)

/-- A number token is fixed by the control-character repair. -/
theorem numTok_map (tok : List Char) (h : ∀ x ∈ tok, numChar x = true) :
    tok.map ctrlToSpace = tok :=
  map_id_of_mem tok (fun x hx => (numChar_spec x (h x hx)).2.2.2.2.2.1)

/-- A number token is invisible to the scanner. -/
theorem numTok_scanOk (tok : List Char) (h : ∀ x ∈ tok, numChar x = true) :
    scanOk tok :=
  scanOk_of_neutral (fun x hx => by
    obtain ⟨h1, _, h3, h4, _⟩ := numChar_spec x (h x hx)
    exact ⟨h1, h3, h4⟩)


/-- The control-character repair fixes printable characters. -/
theorem ctrl_fix_of_ge {c : Char} (h : 32 ≤ c.toNat) : ctrlToSpace c = c := by
  rw [ctrlToSpace, if_neg (by omega)]

/-- The repair fixes the structural characters. -/
theorem ctrl_lbrack : ctrlToSpace '[' = '[' := by decide

theorem ctrl_rbrack : ctrlToSpace ']' = ']' := by decide

theorem ctrl_lbrace_fix : ctrlToSpace lbrace = lbrace := by decide

theorem ctrl_rbrace_fix : ctrlToSpace rbrace = rbrace := by decide

theorem ctrl_comma : ctrlToSpace ',' = ',' := by decide

theorem ctrl_colon : ctrlToSpace ':' = ':' := by decide

theorem ctrl_quote : ctrlToSpace quoteChar = quoteChar := by decide

/-- Whitespace skipping past a repaired prefix, cons-headed form. -/
theorem skipWs_mapped_cons (w : List Char) (c : Char) (t : List Char)
    (hw : ∀ x ∈ w, jsonWs x = true) (hc : jsonWs c = false) :
    skipWs (w.map ctrlToSpace ++ (c :: t)) = c :: t :=
  skipWs_mapped w (c :: t) hw (fun c0 hc0 => by cases hc0; exact hc)

/-- A bracketed segment whose interior is invisible is itself invisible from
positive depth: the `[` raises the depth, the `]` lowers it back. -/
theorem scanOk_array (mid : List Char) (hmid : scanOk mid) :
    scanOk ('[' :: (mid ++ [']'])) := by
  intro i d s0 hd
  rw [goScan_cons, scanStep_open i ⟨s0, d, false, false⟩ rfl]
  dsimp only
  rw [if_neg (show ¬d = 0 from by omega)]
  rw [goScan_append, hmid (i + 1) (d + 1) s0 (by omega)]
  dsimp only
  rw [goScan_cons, scanStep_close_deep (i + 1 + mid.length) ⟨s0, d + 1, false, false⟩ rfl
    (by simp; omega)]
  dsimp only
  rw [show d + 1 - 1 = d from rfl]
  rfl

/-- A braced segment whose interior is invisible is itself invisible: the
scanner ignores braces entirely. -/
theorem scanOk_object (mid : List Char) (hmid : scanOk mid) :
    scanOk (lbrace :: (mid ++ [rbrace])) := by
  intro i d s0 hd
  rw [goScan_cons,
    scanStep_neutral lbrace i ⟨s0, d, false, false⟩ rfl (by decide) (by decide) (by decide)]
  dsimp only
  rw [goScan_append, hmid (i + 1) d s0 hd]
  dsimp only
  rw [goScan_cons, scanStep_neutral rbrace (i + 1 + mid.length) ⟨s0, d, false, false⟩ rfl
    (by decide) (by decide) (by decide)]
  dsimp only
  rfl

/-- The successor step of the parser invariant for `parseValue`: from the
invariants for elements and members at fuel `f`. -/
theorem PV_succ (f : Nat) (ihE : PEStmt f) (ihM : PMStmt f) : PVStmt (f + 1) := by
  intro s v r h
  cases s with
  | nil => rw [parseValue_nil] at h; exact Option.noConfusion h
  | cons c rest =>
    rw [parseValue_cons] at h
    by_cases hq : c = quoteChar
    · rw [if_pos hq] at h
      cases hsb : parseStringBody (rest.length + 1) rest with
      | none => rw [hsb] at h; exact Option.noConfusion h
      | some pr =>
        obtain ⟨content, r1⟩ := pr
        rw [hsb] at h
        simp only [Option.some_inj, Prod.mk.injEq] at h
        obtain ⟨hv, hr⟩ := h
        subst hv
        subst hr
        subst hq
        obtain ⟨Cs, hsplit, stab, ge32, scanS⟩ := parseStringBody_decomp _ _ _ _ hsb
        refine ⟨quoteChar, Cs, by rw [hsplit]; rfl, ⟨by decide, by decide, by decide, by decide, by decide⟩, ?_, ?_⟩
        · intro g r2 hg hr2
          have hmap : (quoteChar :: Cs).map ctrlToSpace = quoteChar :: Cs :=
            map_id_of_mem _ (by
              intro x hx
              rcases List.mem_cons.mp hx with rfl | hx
              · decide
              · exact ctrl_fix_of_ge (ge32 x hx))
          rw [hmap]
          obtain ⟨g2, rfl⟩ : ∃ g2, g = g2 + 1 := ⟨g - 1, by omega⟩
          simp only [List.cons_append]
          rw [parseValue_cons, if_pos rfl,
            stab ((Cs ++ r2).length + 1) r2 (by simp; omega)]
        · intro i d s0 hd
          rw [goScan_cons, scanStep_quote_out i ⟨s0, d, false, false⟩ rfl]
          dsimp only
          exact scanS (i + 1) d s0
    · rw [if_neg hq] at h
      by_cases hbk : c = '['
      · rw [if_pos hbk] at h
        cases ht : skipWs rest with
        | nil => rw [ht] at h; exact Option.noConfusion h
        | cons c2 t2 =>
          rw [ht] at h
          have hw : rest = rest.takeWhile jsonWs ++ (c2 :: t2) := by
            conv_lhs => rw [skipWs_split rest]
            rw [ht]
          have hwall : ∀ x ∈ rest.takeWhile jsonWs, jsonWs x = true := takeWhile_mem_ws
          have hc2 : jsonWs c2 = false := dropWhile_head_false jsonWs rest c2 t2 ht
          dsimp only at h
          by_cases hcb : c2 = ']'
          · rw [if_pos hcb] at h
            simp only [Option.some_inj, Prod.mk.injEq] at h
            obtain ⟨hv, hr⟩ := h
            subst hv
            subst hr
            subst hbk
            subst hcb
            refine ⟨'[', rest.takeWhile jsonWs ++ [']'], ?_, ⟨by decide, by decide, by decide, by decide, by decide⟩, ?_, ?_⟩
            · conv_lhs => rw [hw]
              simp
            · intro g r2 hg hr2
              obtain ⟨g2, rfl⟩ : ∃ g2, g = g2 + 1 := ⟨g - 1, by omega⟩
              simp only [List.map_cons, List.map_append, List.map_nil, List.cons_append,
                List.append_assoc, List.nil_append]
              rw [ctrl_lbrack, ctrl_rbrack]
              rw [parseValue_cons, if_neg (show ¬('[' : Char) = quoteChar from by decide),
                if_pos rfl]
              rw [skipWs_mapped_cons (rest.takeWhile jsonWs) ']' r2 hwall (by decide)]
              dsimp only
              rw [if_pos rfl]
            · exact scanOk_array (rest.takeWhile jsonWs) (scanOk_ws hwall)
          · rw [if_neg hcb] at h
            cases hpe : parseElems f (c2 :: t2) with
            | none => rw [hpe] at h; exact Option.noConfusion h
            | some pr =>
              obtain ⟨l, r1⟩ := pr
              rw [hpe] at h
              cases r1 with
              | nil => dsimp only at h; exact Option.noConfusion h
              | cons c3 r2x =>
                dsimp only at h
                by_cases hc3 : c3 = ']'
                · rw [if_pos hc3] at h
                  simp only [Option.some_inj, Prod.mk.injEq] at h
                  obtain ⟨hv, hr⟩ := h
                  subst hv
                  subst hr
                  subst hbk
                  subst hc3
                  obtain ⟨ce, Ce, hsplitE, headE, stabE, scanE⟩ := ihE _ _ _ hpe
                  rw [List.cons_append] at hsplitE
                  injection hsplitE with hce ht2
                  subst hce
                  refine ⟨'[', (rest.takeWhile jsonWs ++ (c2 :: Ce)) ++ [']'], ?_,
                    ⟨by decide, by decide, by decide, by decide, by decide⟩, ?_, ?_⟩
                  · conv_lhs => rw [hw, ht2]
                    simp [List.append_assoc]
                  · intro g r2 hg hr2
                    obtain ⟨g2, rfl⟩ : ∃ g2, g = g2 + 1 := ⟨g - 1, by omega⟩
                    have hfuel : 2 * (c2 :: Ce).length + 2 ≤ g2 := by
                      simp only [List.length_cons, List.length_append, List.length_nil] at hg ⊢
                      omega
                    have hst := stabE g2 (']' :: r2) hfuel ⟨by decide, by decide, by decide⟩
                    simp only [List.map_cons, List.cons_append] at hst
                    rw [headE.2.1] at hst
                    simp only [List.map_cons, List.map_append, List.map_nil, List.cons_append,
                      List.append_assoc, List.nil_append]
                    rw [ctrl_lbrack, ctrl_rbrack, headE.2.1]
                    rw [parseValue_cons, if_neg (show ¬('[' : Char) = quoteChar from by decide),
                      if_pos rfl]
                    rw [skipWs_mapped_cons (rest.takeWhile jsonWs) c2 _ hwall headE.1]
                    dsimp only
                    rw [if_neg headE.2.2.1]
                    rw [hst]
                    dsimp only
                    rw [if_pos rfl]
                  · exact scanOk_array (rest.takeWhile jsonWs ++ (c2 :: Ce))
                      (scanOk_append (scanOk_ws hwall) scanE)
                · rw [if_neg hc3] at h; exact Option.noConfusion h
      · rw [if_neg hbk] at h
        by_cases hlb : c = lbrace
        · rw [if_pos hlb] at h
          cases ht : skipWs rest with
          | nil => rw [ht] at h; exact Option.noConfusion h
          | cons c2 t2 =>
            rw [ht] at h
            have hw : rest = rest.takeWhile jsonWs ++ (c2 :: t2) := by
              conv_lhs => rw [skipWs_split rest]
              rw [ht]
            have hwall : ∀ x ∈ rest.takeWhile jsonWs, jsonWs x = true := takeWhile_mem_ws
            have hc2 : jsonWs c2 = false := dropWhile_head_false jsonWs rest c2 t2 ht
            dsimp only at h
            by_cases hcb : c2 = rbrace
            · rw [if_pos hcb] at h
              simp only [Option.some_inj, Prod.mk.injEq] at h
              obtain ⟨hv, hr⟩ := h
              subst hv
              subst hr
              subst hlb
              subst hcb
              refine ⟨lbrace, rest.takeWhile jsonWs ++ [rbrace], ?_, ⟨by decide, by decide, by decide, by decide, by decide⟩, ?_, ?_⟩
              · conv_lhs => rw [hw]
                simp
              · intro g r2 hg hr2
                obtain ⟨g2, rfl⟩ : ∃ g2, g = g2 + 1 := ⟨g - 1, by omega⟩
                simp only [List.map_cons, List.map_append, List.map_nil, List.cons_append,
                  List.append_assoc, List.nil_append]
                rw [ctrl_lbrace_fix, ctrl_rbrace_fix]
                rw [parseValue_cons, if_neg (show ¬lbrace = quoteChar from by decide),
                  if_neg (show ¬lbrace = '[' from by decide), if_pos rfl]
                rw [skipWs_mapped_cons (rest.takeWhile jsonWs) rbrace r2 hwall (by decide)]
                dsimp only
                rw [if_pos rfl]
              · exact scanOk_object (rest.takeWhile jsonWs) (scanOk_ws hwall)
            · rw [if_neg hcb] at h
              cases hpm : parseMembers f (c2 :: t2) with
              | none => rw [hpm] at h; exact Option.noConfusion h
              | some pr =>
                obtain ⟨l, r1⟩ := pr
                rw [hpm] at h
                cases r1 with
                | nil => dsimp only at h; exact Option.noConfusion h
                | cons c3 r2x =>
                  dsimp only at h
                  by_cases hc3 : c3 = rbrace
                  · rw [if_pos hc3] at h
                    simp only [Option.some_inj, Prod.mk.injEq] at h
                    obtain ⟨hv, hr⟩ := h
                    subst hv
                    subst hr
                    subst hlb
                    subst hc3
                    obtain ⟨ce, Ce, hsplitM, headM, stabM, scanM⟩ := ihM _ _ _ hpm
                    rw [List.cons_append] at hsplitM
                    injection hsplitM with hce ht2
                    subst hce
                    refine ⟨lbrace, (rest.takeWhile jsonWs ++ (c2 :: Ce)) ++ [rbrace], ?_,
                      ⟨by decide, by decide, by decide, by decide, by decide⟩, ?_, ?_⟩
                    · conv_lhs => rw [hw, ht2]
                      simp [List.append_assoc]
                    · intro g r2 hg hr2
                      obtain ⟨g2, rfl⟩ : ∃ g2, g = g2 + 1 := ⟨g - 1, by omega⟩
                      have hfuel : 2 * (c2 :: Ce).length + 2 ≤ g2 := by
                        simp only [List.length_cons, List.length_append, List.length_nil]
                          at hg ⊢
                        omega
                      have hst := stabM g2 (rbrace :: r2) hfuel ⟨by decide, by decide, by decide⟩
                      simp only [List.map_cons, List.cons_append] at hst
                      rw [headM.2.1] at hst
                      simp only [List.map_cons, List.map_append, List.map_nil, List.cons_append,
                        List.append_assoc, List.nil_append]
                      rw [ctrl_lbrace_fix, ctrl_rbrace_fix, headM.2.1]
                      rw [parseValue_cons, if_neg (show ¬lbrace = quoteChar from by decide),
                        if_neg (show ¬lbrace = '[' from by decide), if_pos rfl]
                      rw [skipWs_mapped_cons (rest.takeWhile jsonWs) c2 _ hwall headM.1]
                      dsimp only
                      rw [if_neg headM.2.2.2.1]
                      rw [hst]
                      dsimp only
                      rw [if_pos rfl]
                    · exact scanOk_object (rest.takeWhile jsonWs ++ (c2 :: Ce))
                        (scanOk_append (scanOk_ws hwall) scanM)
                  · rw [if_neg hc3] at h; exact Option.noConfusion h
        · rw [if_neg hlb] at h
          by_cases hn : c = 'n'
          · rw [if_pos hn] at h
            subst hn
            simp only [parseLit] at h
            by_cases hsw : listStartsWith (str "null") ('n' :: rest) = true
            · rw [if_pos hsw] at h
              simp only [Option.some_inj, Prod.mk.injEq] at h
              obtain ⟨hv, hr⟩ := h
              subst hv
              have hdec := startsWith_decomp _ _ hsw
              refine ⟨'n', str "ull", by rw [← hr]; exact hdec, ⟨by decide, by decide, by decide, by decide, by decide⟩, ?_, ?_⟩
              · intro g r2 hg hr2
                obtain ⟨g2, rfl⟩ : ∃ g2, g = g2 + 1 := ⟨g - 1, by omega⟩
                rw [show (('n' :: str "ull").map ctrlToSpace) = 'n' :: str "ull" from by decide]
                rfl
              · exact scanOk_of_neutral (by decide)
            · rw [if_neg hsw] at h; exact Option.noConfusion h
          · rw [if_neg hn] at h
            by_cases htl : c = 't'
            · rw [if_pos htl] at h
              subst htl
              simp only [parseLit] at h
              by_cases hsw : listStartsWith (str "true") ('t' :: rest) = true
              · rw [if_pos hsw] at h
                simp only [Option.some_inj, Prod.mk.injEq] at h
                obtain ⟨hv, hr⟩ := h
                subst hv
                have hdec := startsWith_decomp _ _ hsw
                refine ⟨'t', str "rue", by rw [← hr]; exact hdec, ⟨by decide, by decide, by decide, by decide, by decide⟩, ?_, ?_⟩
                · intro g r2 hg hr2
                  obtain ⟨g2, rfl⟩ : ∃ g2, g = g2 + 1 := ⟨g - 1, by omega⟩
                  rw [show (('t' :: str "rue").map ctrlToSpace) = 't' :: str "rue" from by decide]
                  rfl
                · exact scanOk_of_neutral (by decide)
              · rw [if_neg hsw] at h; exact Option.noConfusion h
            · rw [if_neg htl] at h
              by_cases hfl : c = 'f'
              · rw [if_pos hfl] at h
                subst hfl
                simp only [parseLit] at h
                by_cases hsw : listStartsWith (str "false") ('f' :: rest) = true
                · rw [if_pos hsw] at h
                  simp only [Option.some_inj, Prod.mk.injEq] at h
                  obtain ⟨hv, hr⟩ := h
                  subst hv
                  have hdec := startsWith_decomp _ _ hsw
                  refine ⟨'f', str "alse", by rw [← hr]; exact hdec, ⟨by decide, by decide, by decide, by decide, by decide⟩, ?_, ?_⟩
                  · intro g r2 hg hr2
                    obtain ⟨g2, rfl⟩ : ∃ g2, g = g2 + 1 := ⟨g - 1, by omega⟩
                    rw [show (('f' :: str "alse").map ctrlToSpace) = 'f' :: str "alse" from
                      by decide]
                    rfl
                  · exact scanOk_of_neutral (by decide)
                · rw [if_neg hsw] at h; exact Option.noConfusion h
              · rw [if_neg hfl] at h
                by_cases hnum : c = '-' ∨ isDig c = true
                · rw [if_pos hnum] at h
                  simp only [parseNumber] at h
                  by_cases hval : validNumTok ((c :: rest).takeWhile numChar) = true
                  · rw [if_pos hval] at h
                    simp only [Option.some_inj, Prod.mk.injEq] at h
                    obtain ⟨hv, hr⟩ := h
                    subst hv
                    have hc : numChar c = true := by
                      rcases hnum with rfl | hd
                      · decide
                      · rw [numChar, hd]; rfl
                    have htok : (c :: rest).takeWhile numChar = c :: rest.takeWhile numChar := by
                      rw [List.takeWhile_cons, if_pos hc]
                    have hrr : r = rest.dropWhile numChar := by
                      rw [← hr, List.dropWhile_cons, if_pos hc]
                    have hmemTok : ∀ x ∈ c :: rest.takeWhile numChar, numChar x = true := by
                      intro x hx
                      rcases List.mem_cons.mp hx with rfl | hx
                      · exact hc
                      · exact List.mem_takeWhile_imp hx
                    rw [htok]
                    obtain ⟨n1, n2, n3, n4, n5, n6, n7, n8, n9, n10, n11, n12⟩ :=
                      numChar_spec c hc
                    refine ⟨c, rest.takeWhile numChar, ?_, ⟨n5, n6, n4, n7, n8⟩, ?_, ?_⟩
                    · rw [hrr, List.cons_append, List.takeWhile_append_dropWhile]
                    · intro g r2 hg hr2
                      obtain ⟨g2, rfl⟩ : ∃ g2, g = g2 + 1 := ⟨g - 1, by omega⟩
                      rw [numTok_map _ hmemTok]
                      simp only [List.cons_append]
                      rw [parseValue_cons, if_neg hq, if_neg hbk, if_neg hlb, if_neg hn,
                        if_neg htl, if_neg hfl, if_pos hnum]
                      simp only [parseNumber]
                      have h1 : (c :: (rest.takeWhile numChar ++ r2)).takeWhile numChar =
                          c :: rest.takeWhile numChar := by
                        rw [List.takeWhile_cons, if_pos hc,
                          takeWhile_append_all numChar _ r2
                            (fun x hx => List.mem_takeWhile_imp hx) (stopV_head hr2)]
                      have h2 : (c :: (rest.takeWhile numChar ++ r2)).dropWhile numChar = r2 := by
                        rw [List.dropWhile_cons, if_pos hc,
                          dropWhile_append_all numChar _ r2
                            (fun x hx => List.mem_takeWhile_imp hx) (stopV_head hr2)]
                      rw [h1, h2, if_pos (by rw [← htok]; exact hval)]
                    · exact numTok_scanOk _ hmemTok
                  · rw [if_neg hval] at h; exact Option.noConfusion h
                · rw [if_neg hnum] at h; exact Option.noConfusion h

/-- A repaired whitespace run followed by a stopper rest is a stopper rest. -/
theorem stopV_ws_append {w r2 : List Char} (hw : ∀ x ∈ w, jsonWs x = true)
    (h2 : stopV r2) : stopV (w.map ctrlToSpace ++ r2) := by
  cases hmw : w.map ctrlToSpace with
  | nil => exact h2
  | cons a t =>
    show numChar a = false
    have ha : a ∈ w.map ctrlToSpace := by rw [hmw]; exact List.mem_cons_self _ _
    exact (jsonWs_spec a (ws_map_ctrl hw a ha)).1

/-- A repaired whitespace run followed by a non-number head is a stopper
rest. -/
theorem stopV_ws_append_cons {w : List Char} (hw : ∀ x ∈ w, jsonWs x = true)
    (c : Char) (hc : numChar c = false) (t : List Char) :
    stopV (w.map ctrlToSpace ++ (c :: t)) := by
  cases hmw : w.map ctrlToSpace with
  | nil => exact hc
  | cons a t2 =>
    show numChar a = false
    have ha : a ∈ w.map ctrlToSpace := by rw [hmw]; exact List.mem_cons_self _ _
    exact (jsonWs_spec a (ws_map_ctrl hw a ha)).1

/-- The successor step of the parser invariant for `parseElems`: from the
invariants for values and elements at fuel `f`. -/
theorem PE_succ (f : Nat) (ihV : PVStmt f) (ihE : PEStmt f) : PEStmt (f + 1) := by
  intro s l r h
  rw [parseElems_succ] at h
  cases hpv : parseValue f s with
  | none => rw [hpv] at h; exact Option.noConfusion h
  | some pr =>
    obtain ⟨v, rv⟩ := pr
    rw [hpv] at h
    dsimp only at h
    obtain ⟨cv, Cv, hsplitV, headV, stabV, scanV⟩ := ihV _ _ _ hpv
    cases ht : skipWs rv with
    | nil =>
      rw [ht] at h
      dsimp only at h
      simp only [Option.some_inj, Prod.mk.injEq] at h
      obtain ⟨hv, hr⟩ := h
      subst hv
      subst hr
      have hrv : rv = rv.takeWhile jsonWs := by
        conv_lhs => rw [skipWs_split rv]
        rw [ht, List.append_nil]
      have hwallrv : ∀ x ∈ rv, jsonWs x = true := by
        intro x hx
        rw [hrv] at hx
        exact takeWhile_mem_ws x hx
      refine ⟨cv, Cv ++ rv, ?_, headV, ?_, ?_⟩
      · rw [hsplitV]; simp
      · intro g r2 hg hr2
        obtain ⟨g2, rfl⟩ : ∃ g2, g = g2 + 1 := ⟨g - 1, by omega⟩
        have hfuelV : 2 * (cv :: Cv).length + 1 ≤ g2 := by
          simp only [List.length_cons, List.length_append] at hg ⊢
          omega
        have hstV := stabV g2 (rv.map ctrlToSpace ++ r2) hfuelV
          (stopV_ws_append hwallrv (stopE_stopV hr2))
        simp only [List.map_cons, List.cons_append] at hstV
        simp only [List.map_cons, List.map_append, List.cons_append, List.append_assoc]
        rw [parseElems_succ, hstV]
        dsimp only
        cases r2 with
        | nil =>
          rw [show skipWs (rv.map ctrlToSpace ++ []) = [] from by
            rw [List.append_nil]; exact skipWs_all_ws rv hwallrv]
        | cons a t =>
          rw [skipWs_mapped_cons rv a t hwallrv hr2.2.1]
          dsimp only
          rw [if_neg hr2.2.2]
      · rw [show cv :: (Cv ++ rv) = (cv :: Cv) ++ rv from by simp]
        exact scanOk_append scanV (scanOk_ws hwallrv)
    | cons c2 t2 =>
      rw [ht] at h
      dsimp only at h
      have hwv : rv = rv.takeWhile jsonWs ++ (c2 :: t2) := by
        conv_lhs => rw [skipWs_split rv]
        rw [ht]
      have hwall : ∀ x ∈ rv.takeWhile jsonWs, jsonWs x = true := takeWhile_mem_ws
      have hc2 : jsonWs c2 = false := dropWhile_head_false jsonWs rv c2 t2 ht
      by_cases hcm : c2 = ','
      · rw [if_pos hcm] at h
        cases hpe2 : parseElems f (skipWs t2) with
        | none => rw [hpe2] at h; exact Option.noConfusion h
        | some pr2 =>
          obtain ⟨l2, rr⟩ := pr2
          rw [hpe2] at h
          simp only [Option.some_inj, Prod.mk.injEq] at h
          obtain ⟨hv, hr⟩ := h
          subst hv
          subst hr
          obtain ⟨ce, Ce, hsplitE, headE, stabE, scanE⟩ := ihE _ _ _ hpe2
          have hw2 : t2 = t2.takeWhile jsonWs ++ ((ce :: Ce) ++ rr) := by
            conv_lhs => rw [skipWs_split t2]
            rw [hsplitE]
          have hwall2 : ∀ x ∈ t2.takeWhile jsonWs, jsonWs x = true := takeWhile_mem_ws
          subst hcm
          refine ⟨cv, (Cv ++ rv.takeWhile jsonWs) ++
            (',' :: (t2.takeWhile jsonWs ++ (ce :: Ce))), ?_, headV, ?_, ?_⟩
          · rw [hsplitV]
            conv_lhs => rw [hwv, hw2]
            simp [List.append_assoc]
          · intro g r2 hg hr2
            obtain ⟨g2, rfl⟩ : ∃ g2, g = g2 + 1 := ⟨g - 1, by omega⟩
            have hfuelV : 2 * (cv :: Cv).length + 1 ≤ g2 := by
              simp only [List.length_cons, List.length_append] at hg ⊢
              omega
            have hfuelE : 2 * (ce :: Ce).length + 2 ≤ g2 := by
              simp only [List.length_cons, List.length_append] at hg ⊢
              omega
            have hstE := stabE g2 r2 hfuelE hr2
            simp only [List.map_cons, List.cons_append] at hstE
            rw [headE.2.1] at hstE
            have hstV := stabV g2 ((rv.takeWhile jsonWs).map ctrlToSpace ++
              (',' :: ((t2.takeWhile jsonWs).map ctrlToSpace ++
                (ce :: (Ce.map ctrlToSpace ++ r2))))) hfuelV
              (stopV_ws_append_cons hwall ',' (by decide) _)
            simp only [List.map_cons, List.cons_append] at hstV
            simp only [List.map_cons, List.map_append, List.cons_append, List.append_assoc]
            rw [headE.2.1, ctrl_comma]
            rw [parseElems_succ, hstV]
            dsimp only
            rw [skipWs_mapped_cons (rv.takeWhile jsonWs) ',' _ hwall (by decide)]
            dsimp only
            rw [if_pos rfl]
            rw [skipWs_mapped_cons (t2.takeWhile jsonWs) ce _ hwall2 headE.1]
            rw [hstE]
          · rw [show cv :: ((Cv ++ rv.takeWhile jsonWs) ++
              (',' :: (t2.takeWhile jsonWs ++ (ce :: Ce)))) =
              (cv :: Cv) ++ (rv.takeWhile jsonWs ++ ([','] ++
                (t2.takeWhile jsonWs ++ (ce :: Ce)))) from by simp]
            exact scanOk_append scanV (scanOk_append (scanOk_ws hwall)
              (scanOk_append (scanOk_of_neutral (by decide))
                (scanOk_append (scanOk_ws hwall2) scanE)))
      · rw [if_neg hcm] at h
        simp only [Option.some_inj, Prod.mk.injEq] at h
        obtain ⟨hv, hr⟩ := h
        subst hv
        subst hr
        refine ⟨cv, Cv ++ rv.takeWhile jsonWs, ?_, headV, ?_, ?_⟩
        · rw [hsplitV]
          conv_lhs => rw [hwv]
          simp [List.append_assoc]
        · intro g r2 hg hr2
          obtain ⟨g2, rfl⟩ : ∃ g2, g = g2 + 1 := ⟨g - 1, by omega⟩
          have hfuelV : 2 * (cv :: Cv).length + 1 ≤ g2 := by
            simp only [List.length_cons, List.length_append] at hg ⊢
            omega
          have hstV := stabV g2 ((rv.takeWhile jsonWs).map ctrlToSpace ++ r2) hfuelV
            (stopV_ws_append hwall (stopE_stopV hr2))
          simp only [List.map_cons, List.cons_append] at hstV
          simp only [List.map_cons, List.map_append, List.cons_append, List.append_assoc]
          rw [parseElems_succ, hstV]
          dsimp only
          cases r2 with
          | nil =>
            rw [show skipWs ((rv.takeWhile jsonWs).map ctrlToSpace ++ []) = [] from by
              rw [List.append_nil]; exact skipWs_all_ws _ hwall]
          | cons a t =>
            rw [skipWs_mapped_cons (rv.takeWhile jsonWs) a t hwall hr2.2.1]
            dsimp only
            rw [if_neg hr2.2.2]
        · rw [show cv :: (Cv ++ rv.takeWhile jsonWs) = (cv :: Cv) ++ rv.takeWhile jsonWs
            from by simp]
          exact scanOk_append scanV (scanOk_ws hwall)

/-- Re-parse a decomposed string body at the fuel the grammar supplies. -/
theorem sb_stab_apply {Cs content : List Char}
    (stab : ∀ f2 r2, Cs.length ≤ f2 → parseStringBody f2 (Cs ++ r2) = some (content, r2))
    (rx : List Char) :
    parseStringBody ((Cs ++ rx).length + 1) (Cs ++ rx) = some (content, rx) :=
  stab _ _ (by simp; omega)

/-- The successor step of the parser invariant for `parseMembers`: from the
invariants for values and members at fuel `f`. -/
theorem PM_succ (f : Nat) (ihV : PVStmt f) (ihM : PMStmt f) : PMStmt (f + 1) := by
  intro s l rOut h
  cases s with
  | nil => rw [parseMembers_nil] at h; exact Option.noConfusion h
  | cons c rTail =>
    rw [parseMembers_succ] at h
    by_cases hq : c = quoteChar
    · rw [if_pos hq] at h
      subst hq
      cases hsb : parseStringBody (rTail.length + 1) rTail with
      | none => rw [hsb] at h; exact Option.noConfusion h
      | some pr =>
        obtain ⟨key, r1⟩ := pr
        rw [hsb] at h
        dsimp only at h
        obtain ⟨Cs, hsplitS, stabS, ge32, scanS⟩ := parseStringBody_decomp _ _ _ _ hsb
        have hCsfix : Cs.map ctrlToSpace = Cs :=
          map_id_of_mem _ (fun x hx => ctrl_fix_of_ge (ge32 x hx))
        cases ht1 : skipWs r1 with
        | nil => rw [ht1] at h; exact Option.noConfusion h
        | cons c2 t2 =>
          rw [ht1] at h
          dsimp only at h
          by_cases hcol : c2 = ':'
          · rw [if_pos hcol] at h
            subst hcol
            have hw1 : r1 = r1.takeWhile jsonWs ++ (':' :: t2) := by
              conv_lhs => rw [skipWs_split r1]
              rw [ht1]
            have hwall1 : ∀ x ∈ r1.takeWhile jsonWs, jsonWs x = true := takeWhile_mem_ws
            cases hpv : parseValue f (skipWs t2) with
            | none => rw [hpv] at h; exact Option.noConfusion h
            | some prv =>
              obtain ⟨v, r3⟩ := prv
              rw [hpv] at h
              dsimp only at h
              obtain ⟨cv, Cv, hsplitV, headV, stabV, scanV⟩ := ihV _ _ _ hpv
              have hw2 : t2 = t2.takeWhile jsonWs ++ ((cv :: Cv) ++ r3) := by
                conv_lhs => rw [skipWs_split t2]
                rw [hsplitV]
              have hwall2 : ∀ x ∈ t2.takeWhile jsonWs, jsonWs x = true := takeWhile_mem_ws
              cases ht3 : skipWs r3 with
              | nil =>
                rw [ht3] at h
                dsimp only at h
                simp only [Option.some_inj, Prod.mk.injEq] at h
                obtain ⟨hv, hr⟩ := h
                subst hv
                subst hr
                have hr3eq : r3 = r3.takeWhile jsonWs := by
                  conv_lhs => rw [skipWs_split r3]
                  rw [ht3, List.append_nil]
                have hr3ws : ∀ x ∈ r3, jsonWs x = true := by
                  intro x hx
                  rw [hr3eq] at hx
                  exact takeWhile_mem_ws x hx
                refine ⟨quoteChar, (Cs ++ r1.takeWhile jsonWs) ++
                  (':' :: (t2.takeWhile jsonWs ++ ((cv :: Cv) ++ r3))), ?_,
                  ⟨by decide, by decide, by decide, by decide, by decide⟩, ?_, ?_⟩
                · rw [hsplitS]
                  conv_lhs => rw [hw1, hw2]
                  simp [List.append_assoc]
                · intro g r2 hg hr2
                  obtain ⟨g2, rfl⟩ : ∃ g2, g = g2 + 1 := ⟨g - 1, by omega⟩
                  have hfuelV : 2 * (cv :: Cv).length + 1 ≤ g2 := by
                    simp only [List.length_cons, List.length_append] at hg ⊢
                    omega
                  have hstV := stabV g2 (r3.map ctrlToSpace ++ r2) hfuelV
                    (stopV_ws_append hr3ws (stopE_stopV hr2))
                  simp only [List.map_cons, List.cons_append] at hstV
                  rw [headV.2.1] at hstV
                  simp only [List.map_cons, List.map_append, List.cons_append,
                    List.append_assoc]
                  rw [ctrl_quote, hCsfix, ctrl_colon, headV.2.1]
                  rw [parseMembers_succ, if_pos rfl, sb_stab_apply stabS _]
                  dsimp only
                  rw [skipWs_mapped_cons (r1.takeWhile jsonWs) ':' _ hwall1 (by decide)]
                  dsimp only
                  rw [if_pos rfl]
                  rw [skipWs_mapped_cons (t2.takeWhile jsonWs) cv _ hwall2 headV.1]
                  rw [hstV]
                  dsimp only
                  cases r2 with
                  | nil =>
                    rw [show skipWs (r3.map ctrlToSpace ++ []) = [] from by
                      rw [List.append_nil]; exact skipWs_all_ws r3 hr3ws]
                  | cons a t =>
                    rw [skipWs_mapped_cons r3 a t hr3ws hr2.2.1]
                    dsimp only
                    rw [if_neg hr2.2.2]
                · intro i d s0 hd
                  rw [goScan_cons, scanStep_quote_out i ⟨s0, d, false, false⟩ rfl]
                  dsimp only
                  rw [show (Cs ++ r1.takeWhile jsonWs) ++
                    (':' :: (t2.takeWhile jsonWs ++ ((cv :: Cv) ++ r3))) =
                    Cs ++ (r1.takeWhile jsonWs ++ ([':'] ++
                      (t2.takeWhile jsonWs ++ ((cv :: Cv) ++ r3)))) from by simp]
                  rw [goScan_append, scanS (i + 1) d s0]
                  dsimp only
                  exact scanOk_append (scanOk_ws hwall1)
                    (scanOk_append (scanOk_of_neutral (by decide))
                      (scanOk_append (scanOk_ws hwall2)
                        (scanOk_append scanV (scanOk_ws hr3ws))))
                    (i + 1 + Cs.length) d s0 hd
              | cons c3 t4 =>
                rw [ht3] at h
                dsimp only at h
                have hw3 : r3 = r3.takeWhile jsonWs ++ (c3 :: t4) := by
                  conv_lhs => rw [skipWs_split r3]
                  rw [ht3]
                have hwall3 : ∀ x ∈ r3.takeWhile jsonWs, jsonWs x = true := takeWhile_mem_ws
                have hc3ws : jsonWs c3 = false := dropWhile_head_false jsonWs r3 c3 t4 ht3
                by_cases hcm : c3 = ','
                · rw [if_pos hcm] at h
                  subst hcm
                  cases hpm : parseMembers f (skipWs t4) with
                  | none => rw [hpm] at h; exact Option.noConfusion h
                  | some prm =>
                    obtain ⟨l2, rr⟩ := prm
                    rw [hpm] at h
                    simp only [Option.some_inj, Prod.mk.injEq] at h
                    obtain ⟨hv, hr⟩ := h
                    subst hv
                    subst hr
                    obtain ⟨cm, Cm, hsplitM, headM, stabM, scanM⟩ := ihM _ _ _ hpm
                    have hw4 : t4 = t4.takeWhile jsonWs ++ ((cm :: Cm) ++ rr) := by
                      conv_lhs => rw [skipWs_split t4]
                      rw [hsplitM]
                    have hwall4 : ∀ x ∈ t4.takeWhile jsonWs, jsonWs x = true :=
                      takeWhile_mem_ws
                    refine ⟨quoteChar, (Cs ++ r1.takeWhile jsonWs) ++
                      (':' :: (t2.takeWhile jsonWs ++ ((cv :: Cv) ++
                        (r3.takeWhile jsonWs ++ (',' :: (t4.takeWhile jsonWs ++
                          (cm :: Cm))))))), ?_,
                      ⟨by decide, by decide, by decide, by decide, by decide⟩, ?_, ?_⟩
                    · rw [hsplitS]
                      conv_lhs => rw [hw1, hw2, hw3, hw4]
                      simp [List.append_assoc]
                    · intro g r2 hg hr2
                      obtain ⟨g2, rfl⟩ : ∃ g2, g = g2 + 1 := ⟨g - 1, by omega⟩
                      have hfuelV : 2 * (cv :: Cv).length + 1 ≤ g2 := by
                        simp only [List.length_cons, List.length_append] at hg ⊢
                        omega
                      have hfuelM : 2 * (cm :: Cm).length + 2 ≤ g2 := by
                        simp only [List.length_cons, List.length_append] at hg ⊢
                        omega
                      have hstM := stabM g2 r2 hfuelM hr2
                      simp only [List.map_cons, List.cons_append] at hstM
                      rw [headM.2.1] at hstM
                      have hstV := stabV g2 ((r3.takeWhile jsonWs).map ctrlToSpace ++
                        (',' :: ((t4.takeWhile jsonWs).map ctrlToSpace ++
                          (cm :: (Cm.map ctrlToSpace ++ r2))))) hfuelV
                        (stopV_ws_append_cons hwall3 ',' (by decide) _)
                      simp only [List.map_cons, List.cons_append] at hstV
                      rw [headV.2.1] at hstV
                      simp only [List.map_cons, List.map_append, List.cons_append,
                        List.append_assoc]
                      rw [ctrl_quote, hCsfix, ctrl_colon, ctrl_comma, headV.2.1, headM.2.1]
                      rw [parseMembers_succ, if_pos rfl, sb_stab_apply stabS _]
                      dsimp only
                      rw [skipWs_mapped_cons (r1.takeWhile jsonWs) ':' _ hwall1 (by decide)]
                      dsimp only
                      rw [if_pos rfl]
                      rw [skipWs_mapped_cons (t2.takeWhile jsonWs) cv _ hwall2 headV.1]
                      rw [hstV]
                      dsimp only
                      rw [skipWs_mapped_cons (r3.takeWhile jsonWs) ',' _ hwall3 (by decide)]
                      dsimp only
                      rw [if_pos rfl]
                      rw [skipWs_mapped_cons (t4.takeWhile jsonWs) cm _ hwall4 headM.1]
                      rw [hstM]
                    · intro i d s0 hd
                      rw [goScan_cons, scanStep_quote_out i ⟨s0, d, false, false⟩ rfl]
                      dsimp only
                      rw [show (Cs ++ r1.takeWhile jsonWs) ++
                        (':' :: (t2.takeWhile jsonWs ++ ((cv :: Cv) ++
                          (r3.takeWhile jsonWs ++ (',' :: (t4.takeWhile jsonWs ++
                            (cm :: Cm))))))) =
                        Cs ++ (r1.takeWhile jsonWs ++ ([':'] ++
                          (t2.takeWhile jsonWs ++ ((cv :: Cv) ++
                            (r3.takeWhile jsonWs ++ ([','] ++ (t4.takeWhile jsonWs ++
                              (cm :: Cm)))))))) from by simp]
                      rw [goScan_append, scanS (i + 1) d s0]
                      dsimp only
                      exact scanOk_append (scanOk_ws hwall1)
                        (scanOk_append (scanOk_of_neutral (by decide))
                          (scanOk_append (scanOk_ws hwall2)
                            (scanOk_append scanV
                              (scanOk_append (scanOk_ws hwall3)
                                (scanOk_append (scanOk_of_neutral (by decide))
                                  (scanOk_append (scanOk_ws hwall4) scanM))))))
                        (i + 1 + Cs.length) d s0 hd
                · rw [if_neg hcm] at h
                  simp only [Option.some_inj, Prod.mk.injEq] at h
                  obtain ⟨hv, hr⟩ := h
                  subst hv
                  subst hr
                  refine ⟨quoteChar, (Cs ++ r1.takeWhile jsonWs) ++
                    (':' :: (t2.takeWhile jsonWs ++ ((cv :: Cv) ++
                      r3.takeWhile jsonWs))), ?_,
                    ⟨by decide, by decide, by decide, by decide, by decide⟩, ?_, ?_⟩
                  · rw [hsplitS]
                    conv_lhs => rw [hw1, hw2, hw3]
                    simp [List.append_assoc]
                  · intro g r2 hg hr2
                    obtain ⟨g2, rfl⟩ : ∃ g2, g = g2 + 1 := ⟨g - 1, by omega⟩
                    have hfuelV : 2 * (cv :: Cv).length + 1 ≤ g2 := by
                      simp only [List.length_cons, List.length_append] at hg ⊢
                      omega
                    have hstV := stabV g2 ((r3.takeWhile jsonWs).map ctrlToSpace ++ r2)
                      hfuelV (stopV_ws_append hwall3 (stopE_stopV hr2))
                    simp only [List.map_cons, List.cons_append] at hstV
                    rw [headV.2.1] at hstV
                    simp only [List.map_cons, List.map_append, List.cons_append,
                      List.append_assoc]
                    rw [ctrl_quote, hCsfix, ctrl_colon, headV.2.1]
                    rw [parseMembers_succ, if_pos rfl, sb_stab_apply stabS _]
                    dsimp only
                    rw [skipWs_mapped_cons (r1.takeWhile jsonWs) ':' _ hwall1 (by decide)]
                    dsimp only
                    rw [if_pos rfl]
                    rw [skipWs_mapped_cons (t2.takeWhile jsonWs) cv _ hwall2 headV.1]
                    rw [hstV]
                    dsimp only
                    cases r2 with
                    | nil =>
                      rw [show skipWs ((r3.takeWhile jsonWs).map ctrlToSpace ++ []) = []
                        from by rw [List.append_nil]; exact skipWs_all_ws _ hwall3]
                    | cons a t =>
                      rw [skipWs_mapped_cons (r3.takeWhile jsonWs) a t hwall3 hr2.2.1]
                      dsimp only
                      rw [if_neg hr2.2.2]
                  · intro i d s0 hd
                    rw [goScan_cons, scanStep_quote_out i ⟨s0, d, false, false⟩ rfl]
                    dsimp only
                    rw [show (Cs ++ r1.takeWhile jsonWs) ++
                      (':' :: (t2.takeWhile jsonWs ++ ((cv :: Cv) ++
                        r3.takeWhile jsonWs))) =
                      Cs ++ (r1.takeWhile jsonWs ++ ([':'] ++
                        (t2.takeWhile jsonWs ++ ((cv :: Cv) ++
                          r3.takeWhile jsonWs)))) from by simp]
                    rw [goScan_append, scanS (i + 1) d s0]
                    dsimp only
                    exact scanOk_append (scanOk_ws hwall1)
                      (scanOk_append (scanOk_of_neutral (by decide))
                        (scanOk_append (scanOk_ws hwall2)
                          (scanOk_append scanV (scanOk_ws hwall3))))
                      (i + 1 + Cs.length) d s0 hd
          · rw [if_neg hcol] at h; exact Option.noConfusion h
    · rw [if_neg hq] at h; exact Option.noConfusion h

/-- The parser invariants hold at every fuel. -/
theorem parser_decomp : ∀ f, PVStmt f ∧ PEStmt f ∧ PMStmt f := by
  intro f
  induction f with
  | zero =>
    refine ⟨?_, ?_, ?_⟩
    · intro s v r h
      simp [parseValue] at h
    · intro s l r h
      simp [parseElems] at h
    · intro s l r h
      simp [parseMembers] at h
  | succ f ih =>
    obtain ⟨ihV, ihE, ihM⟩ := ih
    exact ⟨PV_succ f ihE ihM, PE_succ f ihV ihE, PM_succ f ihV ihM⟩

/-! ## C5 machinery: fence and trim lemmas -/

/-- Both removal passes leave the empty text alone. -/
theorem removeFencesAGo_nil (fuel : Nat) : removeFencesAGo fuel [] = [] := by
  cases fuel <;> rfl

theorem removeFencesBGo_nil (fuel : Nat) : removeFencesBGo fuel [] = [] := by
  cases fuel <;> rfl

/-- Definitional unfolding of one step of the first removal pass. -/
theorem removeFencesAGo_cons (fuel : Nat) (c : Char) (cs : List Char) :
    removeFencesAGo (fuel + 1) (c :: cs) =
      (if c = backtick then
        match cs with
        | c2 :: c3 :: rest =>
          if c2 = backtick && c3 = backtick then
            match rest with
            | a :: b :: c4 :: d :: rest2 =>
              if a.toLower = 'j' && b.toLower = 's' && c4.toLower = 'o' && d.toLower = 'n'
              then removeFencesAGo fuel rest2
              else removeFencesAGo fuel rest
            | _ => removeFencesAGo fuel rest
          else c :: removeFencesAGo fuel cs
        | _ => c :: removeFencesAGo fuel cs
      else c :: removeFencesAGo fuel cs) := rfl

/-- Definitional unfolding of one step of the second removal pass. -/
theorem removeFencesBGo_cons (fuel : Nat) (c : Char) (cs : List Char) :
    removeFencesBGo (fuel + 1) (c :: cs) =
      (if c = backtick then
        match cs with
        | c2 :: c3 :: rest =>
          if c2 = backtick && c3 = backtick then removeFencesBGo fuel rest
          else c :: removeFencesBGo fuel cs
        | _ => c :: removeFencesBGo fuel cs
      else c :: removeFencesBGo fuel cs) := rfl

/-- A prefix test survives appending text on the right. -/
theorem listStartsWith_extend :
    ∀ (p l B : List Char), listStartsWith p l = true →
    listStartsWith p (l ++ B) = true := by
  intro p
  induction p with
  | nil => intro l B _; rfl
  | cons x ps ih =>
    intro l B h
    cases l with
    | nil => exact absurd h (by simp [listStartsWith])
    | cons c cs =>
      simp only [listStartsWith, Bool.and_eq_true, decide_eq_true_eq] at h
      obtain ⟨rfl, h2⟩ := h
      simp [List.cons_append, listStartsWith, ih cs B h2]

/-- A substring occurrence survives appending text on the right. -/
theorem containsSub_true_append_right (n : List Char) :
    ∀ (m B : List Char), containsSub n m = true → containsSub n (m ++ B) = true := by
  intro m
  induction m with
  | nil =>
    intro B h
    cases B with
    | nil => exact h
    | cons c cs =>
      simp only [List.nil_append, containsSub, Bool.or_eq_true]
      exact Or.inl (listStartsWith_extend n [] (c :: cs) h)
  | cons a m2 ih =>
    intro B h
    simp only [containsSub, Bool.or_eq_true] at h
    simp only [List.cons_append, containsSub, Bool.or_eq_true]
    rcases h with h | h
    · exact Or.inl (by
        have := listStartsWith_extend n (a :: m2) B h
        simpa using this)
    · exact Or.inr (ih B h)

/-- Substring-freeness restricts to any suffix of the text. -/
theorem containsSub_false_left (n : List Char) :
    ∀ (A m : List Char), containsSub n (A ++ m) = false → containsSub n m = false := by
  intro A
  induction A with
  | nil => intro m h; exact h
  | cons a A2 ih =>
    intro m h
    simp only [List.cons_append, containsSub, Bool.or_eq_false_iff] at h
    exact ih m h.2

/-- Substring-freeness restricts to any prefix of the text. -/
theorem containsSub_false_right (n m B : List Char)
    (h : containsSub n (m ++ B) = false) : containsSub n m = false := by
  cases hm : containsSub n m with
  | false => rfl
  | true =>
    have ht := containsSub_true_append_right n m B hm
    rw [ht] at h
    exact Bool.noConfusion h

/-- The first removal pass is the identity on fence-free text. -/
theorem removeFencesAGo_id :
    ∀ (fuel : Nat) (l : List Char), containsSub fenceMarker l = false →
    removeFencesAGo fuel l = l := by
  intro fuel
  induction fuel with
  | zero => intro l _; rfl
  | succ fuel ih =>
    intro l h
    cases l with
    | nil => rfl
    | cons c cs =>
      simp only [containsSub, Bool.or_eq_false_iff] at h
      obtain ⟨hsw, hcs⟩ := h
      rw [removeFencesAGo_cons]
      by_cases hb : c = backtick
      · subst hb
        rw [if_pos rfl]
        cases cs with
        | nil => rw [removeFencesAGo_nil]
        | cons c2 cs2 =>
          cases cs2 with
          | nil =>
            dsimp only
            rw [ih _ hcs]
          | cons c3 rest =>
            dsimp only
            by_cases h23 : (c2 = backtick && c3 = backtick) = true
            · exfalso
              simp only [Bool.and_eq_true, decide_eq_true_eq] at h23
              obtain ⟨rfl, rfl⟩ := h23
              simp [fenceMarker, listStartsWith] at hsw
            · rw [if_neg h23, ih _ hcs]
      · rw [if_neg hb, ih _ hcs]

/-- The second removal pass is the identity on fence-free text. -/
theorem removeFencesBGo_id :
    ∀ (fuel : Nat) (l : List Char), containsSub fenceMarker l = false →
    removeFencesBGo fuel l = l := by
  intro fuel
  induction fuel with
  | zero => intro l _; rfl
  | succ fuel ih =>
    intro l h
    cases l with
    | nil => rfl
    | cons c cs =>
      simp only [containsSub, Bool.or_eq_false_iff] at h
      obtain ⟨hsw, hcs⟩ := h
      rw [removeFencesBGo_cons]
      by_cases hb : c = backtick
      · subst hb
        rw [if_pos rfl]
        cases cs with
        | nil => rw [removeFencesBGo_nil]
        | cons c2 cs2 =>
          cases cs2 with
          | nil =>
            dsimp only
            rw [ih _ hcs]
          | cons c3 rest =>
            dsimp only
            by_cases h23 : (c2 = backtick && c3 = backtick) = true
            · exfalso
              simp only [Bool.and_eq_true, decide_eq_true_eq] at h23
              obtain ⟨rfl, rfl⟩ := h23
              simp [fenceMarker, listStartsWith] at hsw
            · rw [if_neg h23, ih _ hcs]
      · rw [if_neg hb, ih _ hcs]

/-- The whole first pass on fence-free text. -/
theorem removeFencesA_id (l : List Char) (h : containsSub fenceMarker l = false) :
    removeFencesA l = l := removeFencesAGo_id _ _ h

/-- The whole second pass on fence-free text. -/
theorem removeFencesB_id (l : List Char) (h : containsSub fenceMarker l = false) :
    removeFencesB l = l := removeFencesBGo_id _ _ h

/-- JSON whitespace is also JS-trim whitespace. -/
theorem jsWs_of_jsonWs {c : Char} (h : jsonWs c = true) : jsWs c = true :=
  (jsonWs_spec c h).2.2.2.2.2.1

/-- `trimStart` past a JSON-whitespace prefix onto a non-JS-whitespace head. -/
theorem trimLeft_ws_append (w R : List Char) (hw : ∀ y ∈ w, jsonWs y = true)
    (hR : ∀ c0, R.head? = some c0 → jsWs c0 = false) :
    trimLeft (w ++ R) = R := by
  rw [trimLeft]
  exact dropWhile_append_all jsWs w R (fun y hy => jsWs_of_jsonWs (hw y hy)) hR

/-- `trimEnd` strips a JSON-whitespace suffix after a non-whitespace last
character. -/
theorem trimRight_append_ws (A : List Char) (x : Char) (w : List Char)
    (hw : ∀ y ∈ w, jsonWs y = true) (hx : jsWs x = false) :
    trimRight ((A ++ [x]) ++ w) = A ++ [x] := by
  have hrev : (A ++ [x]).reverse = x :: A.reverse := by simp
  rw [trimRight, List.reverse_append, hrev,
    dropWhile_append_all jsWs w.reverse (x :: A.reverse)
      (fun y hy => jsWs_of_jsonWs (hw y (List.mem_reverse.mp hy)))
      (fun c0 hc0 => by cases hc0; exact hx)]
  rw [← hrev, List.reverse_reverse]

/-- Whitespace skipping stops at a non-whitespace head. -/
theorem skipWs_cons_neg (c : Char) (l : List Char) (hc : jsonWs c = false) :
    skipWs (c :: l) = c :: l := by
  rw [skipWs, List.dropWhile_cons, if_neg (by simp [hc])]

/-- Re-reading a repaired, trimmed empty JSON array (whitespace inside the
brackets) succeeds. -/
theorem jsonParse_array_empty (w : List Char) (hwall : ∀ x ∈ w, jsonWs x = true) :
    jsonParse ((('[' :: w) ++ [']']).map ctrlToSpace) = some (.arr []) := by
  obtain ⟨F, hF⟩ : ∃ F, 2 * ((('[' :: w) ++ [']']).map ctrlToSpace).length + 2 = F + 1 :=
    ⟨2 * ((('[' :: w) ++ [']']).map ctrlToSpace).length + 1, rfl⟩
  unfold jsonParse
  rw [hF]
  simp only [List.map_cons, List.map_append, List.map_nil, List.cons_append,
    List.append_assoc, List.nil_append]
  rw [ctrl_lbrack, ctrl_rbrack]
  rw [skipWs_cons_neg '[' _ (by decide)]
  rw [parseValue_cons, if_neg (show ¬('[' : Char) = quoteChar from by decide), if_pos rfl]
  rw [skipWs_mapped_cons w ']' [] hwall (by decide)]
  dsimp only
  rw [if_pos rfl]
  dsimp only
  rw [if_pos (show ([] : List Char).all jsonWs = true from rfl)]

/-- Re-reading a repaired, trimmed nonempty JSON array text built from a
decomposed element list succeeds and returns the original parsed elements. -/
theorem jsonParse_array_of_elems (w : List Char) (c2 : Char) (Ce : List Char)
    (items : List Json) (hwall : ∀ x ∈ w, jsonWs x = true)
    (headE : valueHead c2) (hcb : ¬c2 = ']')
    (stabE : ∀ g r2, 2 * (c2 :: Ce).length + 2 ≤ g → stopE r2 →
      parseElems g ((c2 :: Ce).map ctrlToSpace ++ r2) = some (items, r2)) :
    jsonParse ((('[' :: (w ++ (c2 :: Ce))) ++ [']']).map ctrlToSpace) =
      some (.arr items) := by
  have hstE2 : ∀ g, 2 * (c2 :: Ce).length + 2 ≤ g →
      parseElems g (c2 :: (Ce.map ctrlToSpace ++ [']'])) = some (items, [']']) := by
    intro g hgg
    have hx := stabE g [']'] hgg ⟨by decide, by decide, by decide⟩
    simp only [List.map_cons, List.cons_append] at hx
    rw [headE.2.1] at hx
    exact hx
  obtain ⟨F, hF, hFb⟩ : ∃ F,
      2 * ((('[' :: (w ++ (c2 :: Ce))) ++ [']']).map ctrlToSpace).length + 2 = F + 1 ∧
      2 * (c2 :: Ce).length + 2 ≤ F :=
    ⟨2 * ((('[' :: (w ++ (c2 :: Ce))) ++ [']']).map ctrlToSpace).length + 1, rfl, by
      simp only [List.length_map, List.length_append, List.length_cons]
      omega⟩
  unfold jsonParse
  rw [hF]
  simp only [List.map_cons, List.map_append, List.map_nil, List.cons_append,
    List.append_assoc, List.nil_append]
  rw [ctrl_lbrack, ctrl_rbrack, headE.2.1]
  rw [skipWs_cons_neg '[' _ (by decide)]
  rw [parseValue_cons, if_neg (show ¬('[' : Char) = quoteChar from by decide), if_pos rfl]
  rw [skipWs_mapped_cons w c2 _ hwall headE.1]
  dsimp only
  rw [if_neg hcb]
  rw [hstE2 F hFb]
  dsimp only
  rw [if_pos rfl]
  dsimp only
  rw [if_pos (show ([] : List Char).all jsonWs = true from rfl)]

set_option maxHeartbeats 2000000

/-- A bracketed text is its own JS trim. -/
theorem trimJS_bracketed (A : List Char) :
    trimJS (('[' :: A) ++ [']']) = ('[' :: A) ++ [']'] := by
  rw [trimJS]
  have hl : trimLeft (('[' :: A) ++ [']']) = ('[' :: A) ++ [']'] := by
    simp only [List.cons_append, trimLeft, List.dropWhile_cons]
    rw [if_neg (by decide)]
  have hr : trimRight (('[' :: A) ++ [']']) = ('[' :: A) ++ [']'] := by
    have h := trimRight_append_ws ('[' :: A) ']' []
      (fun y hy => absurd hy (List.not_mem_nil y)) (by decide)
    simpa using h
  rw [hl, hr]

/-- C5 (amended): for every raw text that is pure, already-valid JSON array
text whose parsed value passes the shape validation AND that contains no
occurrence of the three-backtick fence marker, the sanitizer returns exactly
the question list read off `JSON.parse` of that text.  (The fence-marker
hypothesis is necessary: the fence-removal passes delete ``` sequences even
inside string payloads, see the counterexample.) -/
theorem c5_sanitizer_roundtrip (s : List Char) (v : Json)
    (hparse : jsonParse s = some v) (hvalid : isValidQuestions v = true)
    (hfence : containsSub fenceMarker s = false) :
    parseSanitize s = .ok (toQuestions v) := by
  unfold jsonParse at hparse
  cases hpv : parseValue (2 * s.length + 2) (skipWs s) with
  | none => rw [hpv] at hparse; exact Option.noConfusion hparse
  | some pr =>
    obtain ⟨v0, r0⟩ := pr
    rw [hpv] at hparse
    dsimp only at hparse
    by_cases hall : r0.all jsonWs = true
    · rw [if_pos hall] at hparse
      injection hparse with hv0
      subst hv0
      have hr0ws : ∀ x ∈ r0, jsonWs x = true := by
        intro x hx
        exact List.all_eq_true.mp hall x hx
      obtain ⟨items, rfl⟩ : ∃ items, v0 = Json.arr items := by
        cases v0 with
        | arr items => exact ⟨items, rfl⟩
        | null => simp [isValidQuestions] at hvalid
        | bool b => simp [isValidQuestions] at hvalid
        | num t => simp [isValidQuestions] at hvalid
        | str t => simp [isValidQuestions] at hvalid
        | obj fs => simp [isValidQuestions] at hvalid
      cases hsw : skipWs s with
      | nil => rw [hsw, parseValue_nil] at hpv; exact Option.noConfusion hpv
      | cons c t =>
        rw [hsw, show 2 * s.length + 2 = (2 * s.length + 1) + 1 from rfl,
          parseValue_cons] at hpv
        by_cases hq : c = quoteChar
        · rw [if_pos hq] at hpv
          cases hsb : parseStringBody (t.length + 1) t with
          | none => rw [hsb] at hpv; exact Option.noConfusion hpv
          | some pr2 =>
            obtain ⟨content, r1⟩ := pr2
            rw [hsb] at hpv
            simp at hpv
        · rw [if_neg hq] at hpv
          by_cases hbk : c = '['
          · rw [if_pos hbk] at hpv
            subst hbk
            cases ht2 : skipWs t with
            | nil => rw [ht2] at hpv; exact Option.noConfusion hpv
            | cons c2 t2 =>
              rw [ht2] at hpv
              dsimp only at hpv
              have hwt : t = t.takeWhile jsonWs ++ (c2 :: t2) := by
                conv_lhs => rw [skipWs_split t]
                rw [ht2]
              have hwall : ∀ x ∈ t.takeWhile jsonWs, jsonWs x = true := takeWhile_mem_ws
              have hst : s = s.takeWhile jsonWs ++ ('[' :: t) := by
                conv_lhs => rw [skipWs_split s]
                rw [hsw]
              have hpre : ∀ x ∈ s.takeWhile jsonWs, jsonWs x = true := takeWhile_mem_ws
              by_cases hcb : c2 = ']'
              · rw [if_pos hcb] at hpv
                simp only [Option.some_inj, Prod.mk.injEq, Json.arr.injEq] at hpv
                obtain ⟨hitems, hr0⟩ := hpv
                subst hitems
                subst hr0
                subst hcb
                have hsfull : s = s.takeWhile jsonWs ++
                    ((('[' :: t.takeWhile jsonWs) ++ [']']) ++ t2) := by
                  conv_lhs => rw [hst, hwt]
                  simp [List.append_assoc]
                have hCT : trimJS s = ('[' :: t.takeWhile jsonWs) ++ [']'] := by
                  have h1 : trimLeft s = ((('[' :: t.takeWhile jsonWs) ++ [']']) ++ t2) := by
                    conv_lhs => rw [hsfull]
                    refine trimLeft_ws_append _ _ hpre ?_
                    intro c0 hc0
                    cases hc0
                    decide
                  have h2 : trimRight ((('[' :: t.takeWhile jsonWs) ++ [']']) ++ t2) =
                      ('[' :: t.takeWhile jsonWs) ++ [']'] :=
                    trimRight_append_ws _ ']' t2 hr0ws (by decide)
                  rw [trimJS, h1, h2]
                have hfCT : containsSub fenceMarker
                    (('[' :: t.takeWhile jsonWs) ++ [']']) = false := by
                  have hf2 := containsSub_false_left fenceMarker _ _ (hsfull ▸ hfence)
                  exact containsSub_false_right _ _ t2 hf2
                have hjp := jsonParse_array_empty (t.takeWhile jsonWs) hwall
                simp only [parseSanitize, cleanAiResponse]
                rw [hCT, removeFencesA_id _ hfCT, removeFencesB_id _ hfCT,
                  trimJS_bracketed]
                rw [show extractFirstJsonArray (('[' :: t.takeWhile jsonWs) ++ [']']) =
                    some (('[' :: t.takeWhile jsonWs) ++ [']']) from ?_]
                · rw [Option.getD_some, hjp]
                  dsimp only
                  rw [validateQuestions, if_pos hvalid]
                · rw [extractFirstJsonArray, goScan_append, goScan_cons,
                    scanStep_open 0 ⟨none, 0, false, false⟩ rfl]
                  dsimp only
                  rw [if_pos rfl]
                  rw [show goScan (t.takeWhile jsonWs) 1 ⟨some 0, 0 + 1, false, false⟩ =
                      Except.ok ⟨some 0, 0 + 1, false, false⟩ from
                    scanOk_ws hwall 1 (0 + 1) (some 0) (by omega)]
                  dsimp only
                  rw [goScan_cons, scanStep_close_one _ ⟨some 0, 0 + 1, false, false⟩ 0
                    rfl rfl rfl]
                  dsimp only
                  rw [List.drop_zero, Nat.sub_zero,
                    List.take_of_length_le (by simp)]
              · rw [if_neg hcb] at hpv
                cases hpe : parseElems (2 * s.length + 1) (c2 :: t2) with
                | none => rw [hpe] at hpv; exact Option.noConfusion hpv
                | some prE =>
                  obtain ⟨le, r1⟩ := prE
                  rw [hpe] at hpv
                  cases r1 with
                  | nil => dsimp only at hpv; exact Option.noConfusion hpv
                  | cons c3 r2x =>
                    dsimp only at hpv
                    by_cases hc3 : c3 = ']'
                    · rw [if_pos hc3] at hpv
                      simp only [Option.some_inj, Prod.mk.injEq, Json.arr.injEq] at hpv
                      obtain ⟨hitems, hr0⟩ := hpv
                      subst hitems
                      subst hr0
                      subst hc3
                      obtain ⟨ce, Ce, hsplitE, headE, stabE, scanE⟩ :=
                        (parser_decomp (2 * s.length + 1)).2.1 _ _ _ hpe
                      rw [List.cons_append] at hsplitE
                      injection hsplitE with hce ht2eq
                      subst hce
                      have hsfull : s = s.takeWhile jsonWs ++
                          ((('[' :: (t.takeWhile jsonWs ++ (c2 :: Ce))) ++ [']']) ++ r2x) := by
                        conv_lhs => rw [hst, hwt, ht2eq]
                        simp [List.append_assoc]
                      have hCT : trimJS s =
                          ('[' :: (t.takeWhile jsonWs ++ (c2 :: Ce))) ++ [']'] := by
                        have h1 : trimLeft s =
                            ((('[' :: (t.takeWhile jsonWs ++ (c2 :: Ce))) ++ [']']) ++ r2x) := by
                          conv_lhs => rw [hsfull]
                          refine trimLeft_ws_append _ _ hpre ?_
                          intro c0 hc0
                          cases hc0
                          decide
                        have h2 : trimRight
                            ((('[' :: (t.takeWhile jsonWs ++ (c2 :: Ce))) ++ [']']) ++ r2x) =
                            ('[' :: (t.takeWhile jsonWs ++ (c2 :: Ce))) ++ [']'] :=
                          trimRight_append_ws _ ']' r2x hr0ws (by decide)
                        rw [trimJS, h1, h2]
                      have hfCT : containsSub fenceMarker
                          (('[' :: (t.takeWhile jsonWs ++ (c2 :: Ce))) ++ [']']) = false := by
                        have hf2 := containsSub_false_left fenceMarker _ _ (hsfull ▸ hfence)
                        exact containsSub_false_right _ _ r2x hf2
                      have hjp := jsonParse_array_of_elems (t.takeWhile jsonWs) c2 Ce le
                        hwall headE hcb stabE
                      simp only [parseSanitize, cleanAiResponse]
                      rw [hCT, removeFencesA_id _ hfCT, removeFencesB_id _ hfCT,
                        trimJS_bracketed]
                      rw [show extractFirstJsonArray
                          (('[' :: (t.takeWhile jsonWs ++ (c2 :: Ce))) ++ [']']) =
                          some (('[' :: (t.takeWhile jsonWs ++ (c2 :: Ce))) ++ [']'])
                          from ?_]
                      · rw [Option.getD_some, hjp]
                        dsimp only
                        rw [validateQuestions, if_pos hvalid]
                      · rw [extractFirstJsonArray, goScan_append, goScan_cons,
                          scanStep_open 0 ⟨none, 0, false, false⟩ rfl]
                        dsimp only
                        rw [if_pos rfl]
                        rw [show goScan (t.takeWhile jsonWs ++ (c2 :: Ce)) 1
                            ⟨some 0, 0 + 1, false, false⟩ =
                            Except.ok ⟨some 0, 0 + 1, false, false⟩ from
                          scanOk_append (scanOk_ws hwall) scanE 1 (0 + 1) (some 0) (by omega)]
                        dsimp only
                        rw [goScan_cons, scanStep_close_one _ ⟨some 0, 0 + 1, false, false⟩ 0
                          rfl rfl rfl]
                        dsimp only
                        rw [List.drop_zero, Nat.sub_zero,
                          List.take_of_length_le (by simp; omega)]
                    · rw [if_neg hc3] at hpv; exact Option.noConfusion hpv
          · rw [if_neg hbk] at hpv
            by_cases hlb : c = lbrace
            · rw [if_pos hlb] at hpv
              cases ht2 : skipWs t with
              | nil => rw [ht2] at hpv; exact Option.noConfusion hpv
              | cons c2 t2 =>
                rw [ht2] at hpv
                dsimp only at hpv
                by_cases hcb : c2 = rbrace
                · rw [if_pos hcb] at hpv
                  simp at hpv
                · rw [if_neg hcb] at hpv
                  cases hpm : parseMembers (2 * s.length + 1) (c2 :: t2) with
                  | none => rw [hpm] at hpv; exact Option.noConfusion hpv
                  | some prm =>
                    obtain ⟨lm, r1⟩ := prm
                    rw [hpm] at hpv
                    cases r1 with
                    | nil => dsimp only at hpv; exact Option.noConfusion hpv
                    | cons c3 r2x =>
                      dsimp only at hpv
                      by_cases hc3 : c3 = rbrace
                      · rw [if_pos hc3] at hpv; simp at hpv
                      · rw [if_neg hc3] at hpv; exact Option.noConfusion hpv
            · rw [if_neg hlb] at hpv
              by_cases hn : c = 'n'
              · rw [if_pos hn] at hpv
                simp only [parseLit] at hpv
                split at hpv
                · simp at hpv
                · exact Option.noConfusion hpv
              · rw [if_neg hn] at hpv
                by_cases htl : c = 't'
                · rw [if_pos htl] at hpv
                  simp only [parseLit] at hpv
                  split at hpv
                  · simp at hpv
                  · exact Option.noConfusion hpv
                · rw [if_neg htl] at hpv
                  by_cases hfl : c = 'f'
                  · rw [if_pos hfl] at hpv
                    simp only [parseLit] at hpv
                    split at hpv
                    · simp at hpv
                    · exact Option.noConfusion hpv
                  · rw [if_neg hfl] at hpv
                    by_cases hnum : c = '-' ∨ isDig c = true
                    · rw [if_pos hnum] at hpv
                      simp only [parseNumber] at hpv
                      split at hpv
                      · simp at hpv
                      · exact Option.noConfusion hpv
                    · rw [if_neg hnum] at hpv; exact Option.noConfusion hpv
    · rw [if_neg hall] at hparse; exact Option.noConfusion hparse

/-- C5 counterexample: the original claim fails without a fence-freeness
hypothesis.  The raw text below is pure, already-valid JSON array text whose
parsed value passes the shape validation, yet the sanitizer does not return
the question list of `JSON.parse` of that text: the fence-removal pass
deletes the three-backtick sequence inside the question string payload. -/
theorem c5_counterexample :
    jsonParse (str "[\x7b\"question\":\"``` q\",\"answer\":\"a\"\x7d]") =
      some (Json.arr [Json.obj [(str "question", Json.str (str "``` q")),
        (str "answer", Json.str (str "a"))]]) ∧
    isValidQuestions (Json.arr [Json.obj [(str "question", Json.str (str "``` q")),
        (str "answer", Json.str (str "a"))]]) = true ∧
    parseSanitize (str "[\x7b\"question\":\"``` q\",\"answer\":\"a\"\x7d]") ≠
      Except.ok (toQuestions (Json.arr [Json.obj [(str "question", Json.str (str "``` q")),
        (str "answer", Json.str (str "a"))]])) := by
  refine ⟨rfl, rfl, ?_⟩
  intro h
  rw [show parseSanitize (str "[\x7b\"question\":\"``` q\",\"answer\":\"a\"\x7d]") =
    Except.ok [⟨str " q", str "a"⟩] from rfl] at h
  injection h with h2
  exact absurd h2 (by decide)

/-- C5 witness: the amended round-trip theorem applied at a concrete
fence-free valid input. -/
theorem c5_witness :
    jsonParse (str "[\x7b\"question\":\"Q1\",\"answer\":\"A1\"\x7d]") =
      some (Json.arr [Json.obj [(str "question", Json.str (str "Q1")),
        (str "answer", Json.str (str "A1"))]]) ∧
    isValidQuestions (Json.arr [Json.obj [(str "question", Json.str (str "Q1")),
        (str "answer", Json.str (str "A1"))]]) = true ∧
    containsSub fenceMarker (str "[\x7b\"question\":\"Q1\",\"answer\":\"A1\"\x7d]") = false ∧
    parseSanitize (str "[\x7b\"question\":\"Q1\",\"answer\":\"A1\"\x7d]") =
      Except.ok (toQuestions (Json.arr [Json.obj [(str "question", Json.str (str "Q1")),
        (str "answer", Json.str (str "A1"))]])) :=
  ⟨rfl, by decide, by decide,
    c5_sanitizer_roundtrip _ _ rfl (by decide) (by decide)⟩

end AiMock
